import Mathlib

/-
Verification of docker-cloudflare-tunnel-sync's reconciliation engines.

This file is a shallow embedding of the three reconcilers
(internal/reconcile/engine.go, internal/dns/engine.go,
internal/access/engine.go) and the data model they operate on
(internal/model, internal/cloudflare types).  Go strings are modelled as
Lean `String` with ASCII case folding; Go maps are modelled as
association lists with the same first/last-wins semantics as the source;
the Cloudflare API is modelled as an in-memory server that answers every
call successfully (each mutating call is recorded in a trace and applied
to the server state).  Sorting calls (sort.Strings, sort.Slice,
sort.SliceStable) are modelled by a stable insertion sort.
-/

set_option maxHeartbeats 1000000

/-! ### Go string primitives (ASCII model) -/

/-- ASCII lower-casing of one character, modelling unicode.ToLower on the
ASCII range used by hostnames, app names and rule strings. -/
def charLower (c : Char) : Char :=
  if 65 ≤ c.toNat ∧ c.toNat ≤ 90 then Char.ofNat (c.toNat + 32) else c

/-- strings.ToLower (ASCII model). -/
def goToLower (s : String) : String := ⟨s.data.map charLower⟩

/-- Whitespace test used by strings.TrimSpace (ASCII model). -/
def isSpaceChar (c : Char) : Bool :=
  c = ' ' || c = '\t' || c = '\n' || c = '\r'

/-- strings.TrimSpace (ASCII model). -/
def goTrimSpace (s : String) : String :=
  ⟨((s.data.dropWhile isSpaceChar).reverse.dropWhile isSpaceChar).reverse⟩

def endsWithL (l suf : List Char) : Bool :=
  if suf.length ≤ l.length then l.drop (l.length - suf.length) == suf else false

/-- strings.HasSuffix. -/
def goHasSuffix (s suf : String) : Bool := endsWithL s.data suf.data

/-- strings.TrimSuffix (removes one occurrence of the suffix, if present). -/
def goTrimSuffix (s suf : String) : String :=
  if goHasSuffix s suf then ⟨s.data.take (s.data.length - suf.data.length)⟩ else s

/-- strings.EqualFold (ASCII model: equality after lower-casing). -/
def goEqualFold (a b : String) : Bool := goToLower a == goToLower b

def charLt (a b : Char) : Bool := a.val < b.val

def lexLt : List Char → List Char → Bool
  | [], [] => false
  | [], _ :: _ => true
  | _ :: _, [] => false
  | a :: as, b :: bs => if a = b then lexLt as bs else charLt a b

/-- Byte-wise string comparison, modelling Go's `<` on strings. -/
def goStrLt (a b : String) : Bool := lexLt a.data b.data

/-- Byte-wise `<=` on strings, used to model sort.Strings and the
comparison functions passed to sort.Slice. -/
def goStrLe (a b : String) : Bool := goStrLt a b || a == b

/-! ### Stable insertion sort, modelling the sort package -/

def insertSorted (le : α → α → Bool) (x : α) : List α → List α
  | [] => [x]
  | y :: ys => if le y x then y :: insertSorted le x ys else x :: y :: ys

/-- Stable sort: elements the comparison ties are kept in input order,
matching sort.SliceStable; for the strict-weak orders the engines pass to
sort.Slice / sort.Strings the result is the unique sorted permutation. -/
def sortBy (le : α → α → Bool) (l : List α) : List α :=
  l.foldl (fun acc x => insertSorted le x acc) []

/-! ### Association-list helpers, modelling Go maps -/

/-- Map write `m[k] = v` (replaces an existing binding; later writes win,
like Go map assignment). -/
def assocSet (m : List (String × β)) (k : String) (v : β) : List (String × β) :=
  match m with
  | [] => [(k, v)]
  | (k', v') :: rest => if k' = k then (k, v) :: rest else (k', v') :: assocSet rest k v

/-- Map read `m[k]`. -/
def assocGet (m : List (String × β)) (k : String) : Option β :=
  match m with
  | [] => none
  | (k', v') :: rest => if k' = k then some v' else assocGet rest k

/-! ### JSON model for opaque originRequest objects

The ingress engine treats originRequest as opaque JSON bytes
(json.RawMessage) that it unmarshals into a map[string]any, patches two
managed keys in, and re-marshals.  Bytes are modelled by `RawMsg`: either
bytes that parse as a JSON object (carrying the entry list in the order
the bytes spell it, duplicate keys allowed as JSON allows them) or bytes
that fail to unmarshal.  A decoded map[string]any is modelled as a
key-sorted, duplicate-free association list, which is also the exact
order encoding/json marshals a map (keys sorted), so marshaling the
decoded map is the identity embedding. -/

inductive JVal where
  | str : String → JVal
  | boolean : Bool → JVal
  | other : Nat → JVal
deriving DecidableEq, Repr

/-- Map write for the decoded object, keeping keys sorted and unique. -/
def omapSet : List (String × JVal) → String → JVal → List (String × JVal)
  | [], k, v => [(k, v)]
  | (k', v') :: rest, k, v =>
    if goStrLt k k' then (k, v) :: (k', v') :: rest
    else if k = k' then (k, v) :: rest
    else (k', v') :: omapSet rest k v

def omapGet (m : List (String × JVal)) (k : String) : Option JVal :=
  match m with
  | [] => none
  | (k', v') :: rest => if k' = k then some v' else omapGet rest k

def omapHas (m : List (String × JVal)) (k : String) : Bool :=
  (omapGet m k).isSome

/-- Map key removal, modelling Go's delete builtin. -/
def omapDelete (m : List (String × JVal)) (k : String) : List (String × JVal) :=
  m.filter (fun p => p.1 != k)

/-- Decoding an entry list into the map: later duplicate keys win, as in
encoding/json. -/
def canon (entries : List (String × JVal)) : List (String × JVal) :=
  entries.foldl (fun m p => omapSet m p.1 p.2) []

inductive RawMsg where
  | obj : List (String × JVal) → RawMsg
  | invalid : Nat → RawMsg
deriving DecidableEq, Repr

/-- json.Unmarshal of originRequest bytes into map[string]any. -/
def parseRaw : RawMsg → Option (List (String × JVal))
  | .obj entries => some (canon entries)
  | .invalid _ => none

/-- json.Marshal of the decoded map: keys are already sorted, so this is
the identity embedding into bytes. -/
def marshalObj (m : List (String × JVal)) : RawMsg := .obj m

/-! ### Desired-state model (internal/model) -/

structure SourceRef where
  containerID : String := ""
  containerName : String := ""
deriving DecidableEq, Repr

/-- RouteKey identifies a unique Cloudflare Tunnel ingress rule. -/
structure RouteKey where
  hostname : String
  path : String
deriving DecidableEq, Repr

/-- RouteKey.String: hostname for an empty path, hostname+path otherwise;
both cases coincide with plain concatenation. -/
def routeKeyString (key : RouteKey) : String :=
  if key.path = "" then key.hostname else key.hostname ++ key.path

/-- RouteSpec describes the desired ingress rule state derived from
Docker labels. -/
structure RouteSpec where
  key : RouteKey
  service : String
  originServerName : Option String := none
  noTLSVerify : Option Bool := none
  source : SourceRef := {}
deriving DecidableEq, Repr

/-- Modelled from the spec: the catch-all service constant
model.FallbackService is not under src; the README documents the trailing
`http_status:404` fallback rule. -/
def FallbackService : String := "http_status:404"

/-- IngressRule represents a Cloudflare Tunnel ingress rule; the
originRequest JSON bytes are `none` when absent (nil / zero-length). -/
structure IngressRule where
  hostname : String := ""
  path : String := ""
  service : String
  originRequest : Option RawMsg := none
deriving DecidableEq, Repr

/-! ### mergeManagedOriginRequest (internal/reconcile/engine.go) -/

def originRequestStringEqual (value : JVal) (expected : String) : Bool :=
  match value with
  | .str s => s == expected
  | _ => false

def originRequestBoolEqual (value : JVal) (expected : Bool) : Bool :=
  match value with
  | .boolean b => b == expected
  | _ => false

/-- Decoded view of existing originRequest bytes: absent or unparseable
bytes decode to the empty object (the source logs a warning and rebuilds
from the managed keys only in the unparseable case). -/
def parsedObj : Option RawMsg → List (String × JVal)
  | none => []
  | some raw => (parseRaw raw).getD []

/-- The originServerName block of mergeManagedOriginRequest: add or
overwrite the key when the route specifies the field and the current
value differs, remove it when the route does not specify it; the flag
reports whether the object changed. -/
def patchOriginServerName (m : List (String × JVal)) (desired : Option String) :
    List (String × JVal) × Bool :=
  match desired with
  | some v =>
    match omapGet m "originServerName" with
    | some cur =>
      if originRequestStringEqual cur v then (m, false)
      else (omapSet m "originServerName" (.str v), true)
    | none => (omapSet m "originServerName" (.str v), true)
  | none =>
    if omapHas m "originServerName" then (omapDelete m "originServerName", true)
    else (m, false)

/-- The noTLSVerify block of mergeManagedOriginRequest, symmetric to
`patchOriginServerName`. -/
def patchNoTLSVerify (m : List (String × JVal)) (desired : Option Bool) :
    List (String × JVal) × Bool :=
  match desired with
  | some v =>
    match omapGet m "noTLSVerify" with
    | some cur =>
      if originRequestBoolEqual cur v then (m, false)
      else (omapSet m "noTLSVerify" (.boolean v), true)
    | none => (omapSet m "noTLSVerify" (.boolean v), true)
  | none =>
    if omapHas m "noTLSVerify" then (omapDelete m "noTLSVerify", true)
    else (m, false)

/-- Faithful translation of mergeManagedOriginRequest: patches the two
managed keys into the existing object per the desired route, removing
them when the route does not specify them; returns the existing bytes
untouched when nothing changed, and nil instead of an empty object.
(The json.Marshal error branch of the source is unreachable here since
every modelled value marshals.) -/
def mergeManagedOriginRequest (existing : Option RawMsg) (route : RouteSpec) :
    Option RawMsg :=
  if existing.isNone && route.originServerName.isNone && route.noTLSVerify.isNone then
    none
  else
    let originRequest := parsedObj existing
    let s1 := patchOriginServerName originRequest route.originServerName
    let s2 := patchNoTLSVerify s1.1 route.noTLSVerify
    if !(s1.2 || s2.2) then
      match existing with
      | none => none
      | some raw => some raw
    else if s2.1.isEmpty then none
    else some (marshalObj s2.1)

/-! ### Ingress reconciliation (internal/reconcile/engine.go) -/

/-- ingressRuleKey: the string the emitted and removed rule lists are
sorted by (RouteKey.String of the rule's hostname and path). -/
def ingressRuleKey (rule : IngressRule) : String :=
  routeKeyString ⟨rule.hostname, rule.path⟩

/-- One step of indexing the live rules by (hostname, path): the
catch-all is skipped, rules without a hostname are logged and excluded,
and on a duplicate key the first occurrence is kept (with a warning). -/
def addExistingRule (acc : List (RouteKey × IngressRule)) (rule : IngressRule) :
    List (RouteKey × IngressRule) :=
  if rule.hostname == "" && rule.service == FallbackService then acc
  else if rule.hostname == "" then acc
  else
    let key : RouteKey := ⟨rule.hostname, rule.path⟩
    if (acc.find? (fun p => p.1 == key)).isSome then acc
    else acc ++ [(key, rule)]

def buildExistingByKey (existing : List IngressRule) : List (RouteKey × IngressRule) :=
  existing.foldl addExistingRule []

def lookupRouteKey (m : List (RouteKey × IngressRule)) (key : RouteKey) :
    Option IngressRule :=
  (m.find? (fun p => p.1 == key)).map (·.2)

/-- The catch-all rule appended at the end of every emitted list. -/
def catchAllRule : IngressRule :=
  { hostname := "", path := "", service := FallbackService, originRequest := none }

def ruleLeKey (a b : IngressRule) : Bool := goStrLe (ingressRuleKey a) (ingressRuleKey b)

/-- buildDesiredIngress: returns the full rule list to write (desired
rules with merged origin options, sorted by key, with the catch-all
appended last) and the live rules being dropped (sorted separately for
reporting). -/
def buildDesiredIngress (desired : List RouteSpec) (existing : List IngressRule) :
    List IngressRule × List IngressRule :=
  let existingByKey := buildExistingByKey existing
  let desiredRules := desired.map (fun route =>
    let existingOriginRequest : Option RawMsg :=
      match lookupRouteKey existingByKey route.key with
      | some existingRule => existingRule.originRequest
      | none => none
    { hostname := route.key.hostname
      path := route.key.path
      service := route.service
      originRequest := mergeManagedOriginRequest existingOriginRequest route : IngressRule })
  let desiredKeys := desired.map (·.key)
  let sortedRules := sortBy ruleLeKey desiredRules
  let removed := sortBy ruleLeKey
    ((existingByKey.filter (fun p => !(desiredKeys.contains p.1))).map (·.2))
  (sortedRules ++ [catchAllRule], removed)

/-- ingressEqual: element-by-element comparison (hostname, path, service,
originRequest byte equality). -/
def ingressEqual (left right : List IngressRule) : Bool :=
  left.length == right.length &&
    (List.zip left right).all (fun p =>
      p.1.hostname == p.2.hostname && p.1.path == p.2.path &&
      p.1.service == p.2.service && p.1.originRequest == p.2.originRequest)

/-- A rule with no hostname whose service is the fallback service: the
shape of the catch-all rule the claims speak about. -/
def isCatchAllRule (rule : IngressRule) : Bool :=
  rule.hostname == "" && rule.service == FallbackService

/-! ### Ownership markers (internal/model/ownership.go) -/

def DefaultManagedBy : String := "docker-cf-tunnel-sync"

def ManagedByValue (value : String) : String :=
  let trimmed := goTrimSpace value
  if trimmed == "" then DefaultManagedBy else trimmed

def AccessManagedTag (value : String) : String := "managed-by=" ++ ManagedByValue value

def DNSManagedComment (value : String) : String := "managed-by=" ++ ManagedByValue value

/-! ### DNS reconciliation (internal/dns/engine.go)

The Cloudflare DNS API is modelled by `DNSState`: the account's zones and
a list of (zone ID, record) pairs.  Every call succeeds; each mutating
call is recorded as a `DNSCall` and applied to the state.  Created
records receive fresh identifiers `freshID n` from a counter. -/

def dnsRecordType : String := "CNAME"

def dnsRecordTTL : Int := 1

structure Zone where
  id : String
  name : String
deriving DecidableEq, Repr

structure DNSRecord where
  id : String := ""
  rtype : String
  name : String
  content : String
  proxied : Bool := false
  comment : String := ""
  ttl : Int := 0
deriving DecidableEq, Repr

structure DNSRecordInput where
  rtype : String
  name : String
  content : String
  proxied : Bool
  ttl : Int
  comment : String
deriving DecidableEq, Repr

/-- Engine configuration: the flags and strings carried by dns.Engine
(the `rtype`-style renaming: Go's `type` and `delete` fields keep their
names where Lean allows). -/
structure DNSCfg where
  dryRun : Bool
  manage : Bool
  delete : Bool
  tunnelID : String
  managedComment : String
deriving DecidableEq, Repr

structure DNSState where
  zones : List Zone
  recs : List (String × DNSRecord)
  nextID : Nat := 0
deriving DecidableEq, Repr

inductive DNSCall where
  | createRecord (zoneID : String) (input : DNSRecordInput)
  | updateRecord (zoneID recordID : String) (input : DNSRecordInput)
  | deleteRecord (zoneID recordID : String)
deriving DecidableEq, Repr

/-- Identifier the modelled server assigns to the n-th created resource. -/
def freshID (n : Nat) : String := "created:" ++ toString n

/-- The DNS record stored by the modelled server for a create or update
payload, with the given identifier. -/
def dnsRecordOf (id : String) (input : DNSRecordInput) : DNSRecord :=
  { id := id, rtype := input.rtype, name := input.name, content := input.content,
    proxied := input.proxied, comment := input.comment, ttl := input.ttl }

/-- ListDNSRecords: records of the zone matching the type filter and the
optional exact name filter. -/
def listDNSRecords (st : DNSState) (zoneID rtype name : String) : List DNSRecord :=
  (st.recs.filter (fun zr =>
    zr.1 == zoneID && (rtype == "" || zr.2.rtype == rtype) &&
      (name == "" || zr.2.name == name))).map (·.2)

def applyCreateRecord (st : DNSState) (zoneID : String) (input : DNSRecordInput) :
    DNSState :=
  { st with
    recs := st.recs ++ [(zoneID, dnsRecordOf (freshID st.nextID) input)]
    nextID := st.nextID + 1 }

def applyUpdateRecord (st : DNSState) (zoneID recordID : String)
    (input : DNSRecordInput) : DNSState :=
  { st with
    recs := st.recs.map (fun zr =>
      if zr.1 == zoneID && zr.2.id == recordID then (zr.1, dnsRecordOf zr.2.id input)
      else zr) }

def applyDeleteRecord (st : DNSState) (zoneID recordID : String) : DNSState :=
  { st with recs := st.recs.filter (fun zr => !(zr.1 == zoneID && zr.2.id == recordID)) }

def tunnelTarget (tunnelID : String) : String := tunnelID ++ ".cfargotunnel.com"

def isManagedRecord (managedComment : String) (record : DNSRecord)
    (desired : DNSRecordInput) : Bool :=
  if record.comment == managedComment then true
  else goEqualFold record.content desired.content

/-- One iteration of the hostname-collection loop of uniqueHostnames. -/
def uniqueHostnamesAdd (acc : List String) (route : RouteSpec) : List String :=
  let host := goTrimSpace route.key.hostname
  if host == "" then acc
  else
    let host := goToLower (goTrimSuffix host ".")
    if acc.contains host then acc else acc ++ [host]

def uniqueHostnames (routes : List RouteSpec) : List String :=
  sortBy goStrLe (routes.foldl uniqueHostnamesAdd [])

/-- Zone comparison handed to sort.SliceStable: longer names first. -/
def zoneLe (a b : Zone) : Bool := decide (b.name.data.length ≤ a.name.data.length)

def orderZones (zones : List Zone) : List Zone := sortBy zoneLe zones

/-- matchZone from the source (defined there but never called by the
engine): the first zone in the given order whose name equals the
hostname or is a dot-suffix of it. -/
def matchZone (hostname : String) (zones : List Zone) : Option Zone :=
  let lower := goToLower (goTrimSuffix hostname ".")
  zones.find? (fun zone =>
    let zoneName := goToLower (goTrimSuffix zone.name ".")
    lower == zoneName || goHasSuffix lower ("." ++ zoneName))

def filterHostnamesForZone (hostnames : List String) (zoneName : String) : List String :=
  let lowerZone := goToLower (goTrimSuffix zoneName ".")
  (hostnames.map (fun h => goToLower (goTrimSuffix h "."))).filter
    (fun lower => lower == lowerZone || goHasSuffix lower ("." ++ lowerZone))

def dnsRecordEqual (record : DNSRecord) (desired : DNSRecordInput) : Bool :=
  goEqualFold record.content desired.content &&
    record.proxied == desired.proxied &&
    record.comment == desired.comment

/-- One iteration of the per-zone deletion loop: skip records whose
normalized name is still desired in this zone, records not carrying the
ownership comment, and everything when the delete flag or dry-run gates
deletion. -/
def deleteStaleStep (cfg : DNSCfg) (byName : List String) (zone : Zone)
    (acc : DNSState × List DNSCall) (record : DNSRecord) : DNSState × List DNSCall :=
  let hostname := goToLower (goTrimSuffix record.name ".")
  if byName.contains hostname then acc
  else if !cfg.delete then acc
  else if record.comment != cfg.managedComment then acc
  else if cfg.dryRun then acc
  else (applyDeleteRecord acc.1 zone.id record.id, acc.2 ++ [.deleteRecord zone.id record.id])

/-- The per-hostname upsert of the DNS engine: skip on multiple matches,
create on zero matches, and on exactly one match skip non-CNAME records,
skip records the engine cannot prove it owns, and update only on an
actual difference (all mutations gated by dry-run). -/
def upsertHostname (cfg : DNSCfg) (zone : Zone) (acc : DNSState × List DNSCall)
    (hostname : String) : DNSState × List DNSCall :=
  let records := listDNSRecords acc.1 zone.id dnsRecordType hostname
  if records.length > 1 then acc
  else
    let desired : DNSRecordInput :=
      { rtype := dnsRecordType, name := hostname, content := tunnelTarget cfg.tunnelID,
        proxied := true, ttl := dnsRecordTTL, comment := cfg.managedComment }
    match records with
    | [] =>
      if cfg.dryRun then acc
      else (applyCreateRecord acc.1 zone.id desired, acc.2 ++ [.createRecord zone.id desired])
    | record :: _ =>
      if record.rtype != dnsRecordType then acc
      else if !(isManagedRecord cfg.managedComment record desired) then acc
      else if dnsRecordEqual record desired then acc
      else if cfg.dryRun then acc
      else (applyUpdateRecord acc.1 zone.id record.id desired,
        acc.2 ++ [.updateRecord zone.id record.id desired])

/-- Per-zone body of the DNS reconcile loop: the deletion pass iterates
the listing taken before any deletion, then each hostname claimed by the
zone is upserted. -/
def processZone (cfg : DNSCfg) (hostnames : List String)
    (acc : DNSState × List DNSCall) (zone : Zone) : DNSState × List DNSCall :=
  let knownHostnames := filterHostnamesForZone hostnames zone.name
  let records := listDNSRecords acc.1 zone.id dnsRecordType ""
  let acc1 := records.foldl (deleteStaleStep cfg knownHostnames zone) acc
  knownHostnames.foldl (upsertHostname cfg zone) acc1

/-- dns.Engine.Reconcile: a no-op when management is disabled, when
nothing is desired and the delete flag is off, or when the account has no
zones; otherwise every zone is processed in order of descending name
length.  The error-free model always returns success, so the result is
the final server state plus the trace of mutating calls. -/
def reconcileDNS (cfg : DNSCfg) (st : DNSState) (routes : List RouteSpec) :
    DNSState × List DNSCall :=
  if !cfg.manage then (st, [])
  else
    let hostnames := uniqueHostnames routes
    if hostnames.isEmpty && !cfg.delete then (st, [])
    else if st.zones.isEmpty then (st, [])
    else (orderZones st.zones).foldl (processZone cfg hostnames) (st, [])

/-! ### Access data model (internal/model, internal/cloudflare)

Note on fields: Go's `Type` is rendered `apptype` and `Include` is
rendered `includeRules` (reserved words in Lean); the AccessAppSpec
carries the Tags/TagsSet pair set by the label parser and consumed by
the engine. -/

structure AccessRule where
  email : String := ""
  ip : String := ""
deriving DecidableEq, Repr

structure AccessPolicyRef where
  id : String
  precedence : Nat := 0
deriving DecidableEq, Repr

structure AccessPolicyInput where
  name : String
  action : String
  includeRules : List AccessRule
deriving DecidableEq, Repr

structure AccessPolicyRecord where
  id : String
  name : String := ""
  action : String := ""
  includeRules : List AccessRule := []
  hasUnsupportedRules : Bool := false
deriving DecidableEq, Repr

structure AccessAppInput where
  name : String
  domain : String
  apptype : String
  policies : List AccessPolicyRef
  tags : List String
deriving DecidableEq, Repr

structure AccessAppRecord where
  id : String
  name : String
  domain : String
  apptype : String := ""
  policies : List AccessPolicyRef := []
  tags : List String := []
deriving DecidableEq, Repr

structure AccessPolicySpec where
  id : String := ""
  name : String := ""
  action : String := ""
  includeEmails : List String := []
  includeIPs : List String := []
  managed : Bool := false
deriving DecidableEq, Repr

structure AccessAppSpec where
  id : String := ""
  name : String
  domain : String
  policies : List AccessPolicySpec
  tags : List String := []
  tagsSet : Bool := false
  source : SourceRef := {}
deriving DecidableEq, Repr

/-! ### Access reconciliation (internal/access/engine.go) -/

structure AccessCfg where
  dryRun : Bool
  manage : Bool
  managedTag : String
deriving DecidableEq, Repr

structure AccessServer where
  apps : List AccessAppRecord
  policies : List AccessPolicyRecord
  tags : List String := []
  nextID : Nat := 0
deriving DecidableEq, Repr

inductive AccessCall where
  | createApp (input : AccessAppInput)
  | updateApp (id : String) (input : AccessAppInput)
  | deleteApp (app : AccessAppRecord)
  | createPolicy (input : AccessPolicyInput)
  | updatePolicy (id : String) (input : AccessPolicyInput)
  | createTag (name : String)
deriving DecidableEq, Repr

def applyCreatePolicy (st : AccessServer) (input : AccessPolicyInput) :
    AccessServer × AccessPolicyRecord :=
  let record : AccessPolicyRecord :=
    { id := freshID st.nextID, name := input.name, action := input.action,
      includeRules := input.includeRules, hasUnsupportedRules := false }
  ({ st with policies := st.policies ++ [record], nextID := st.nextID + 1 }, record)

def applyUpdatePolicy (st : AccessServer) (id : String) (input : AccessPolicyInput) :
    AccessServer :=
  { st with policies := st.policies.map (fun p =>
      if p.id == id then
        { id := p.id, name := input.name, action := input.action,
          includeRules := input.includeRules, hasUnsupportedRules := false }
      else p) }

def applyCreateApp (st : AccessServer) (input : AccessAppInput) :
    AccessServer × AccessAppRecord :=
  let record : AccessAppRecord :=
    { id := freshID st.nextID, name := input.name, domain := input.domain,
      apptype := input.apptype, policies := input.policies, tags := input.tags }
  ({ st with apps := st.apps ++ [record], nextID := st.nextID + 1 }, record)

def applyUpdateApp (st : AccessServer) (id : String) (input : AccessAppInput) :
    AccessServer × AccessAppRecord :=
  let record : AccessAppRecord :=
    { id := id, name := input.name, domain := input.domain,
      apptype := input.apptype, policies := input.policies, tags := input.tags }
  ({ st with apps := st.apps.map (fun a => if a.id == id then record else a) }, record)

def applyDeleteApp (st : AccessServer) (id : String) : AccessServer :=
  { st with apps := st.apps.filter (fun a => a.id != id) }

/-- EnsureAccessTag of the modelled server: idempotent create-if-missing;
a blank name is a no-op; the call never fails. -/
def ensureAccessTag (st : AccessServer) (name : String) : AccessServer × List AccessCall :=
  if goTrimSpace name == "" then (st, [])
  else if st.tags.contains name then (st, [])
  else ({ st with tags := st.tags ++ [name] }, [.createTag name])

def policyLabel (spec : AccessPolicySpec) : String :=
  if spec.name != "" then spec.name
  else if spec.id != "" then spec.id
  else "unknown"

def normalizeRules (emails ips : List String) : List String :=
  sortBy goStrLe
    (emails.map (fun email => "email:" ++ goToLower (goTrimSpace email)) ++
      ips.map (fun ip => "ip:" ++ goToLower (goTrimSpace ip)))

def normalizeRuleList (rules : List AccessRule) : List String :=
  sortBy goStrLe
    (rules.foldl (fun acc rule =>
      let acc := if rule.email != "" then acc ++ ["email:" ++ goToLower rule.email] else acc
      if rule.ip != "" then acc ++ ["ip:" ++ goToLower rule.ip] else acc) [])

/-- policyNeedsUpdate: case-insensitive action comparison and equality of
the normalized include multisets (the source compares lengths and then
element by element, which is list equality). -/
def policyNeedsUpdate (spec : AccessPolicySpec) (record : AccessPolicyRecord) : Bool :=
  if goToLower record.action != goToLower spec.action then true
  else normalizeRules spec.includeEmails spec.includeIPs != normalizeRuleList record.includeRules

def mergeTags (existing : List String) (required : String) : List String :=
  let tags := existing.foldl (fun acc tag =>
    if tag == "" then acc
    else if acc.contains tag then acc
    else acc ++ [tag]) []
  if required != "" && !tags.contains required then tags ++ [required] else tags

def hasManagedTag (tags : List String) (managedTag : String) : Bool :=
  tags.any (fun tag => tag == managedTag)

/-- normalizePolicyRefs: drop empty IDs, default a zero precedence to the
positional index + 1, stable-sort by precedence and keep the IDs. -/
def normalizePolicyRefs (refs : List AccessPolicyRef) : List String :=
  let ordered := refs.enum.filterMap (fun p =>
    if p.2.id == "" then none
    else some (p.2.id, if p.2.precedence == 0 then p.1 + 1 else p.2.precedence))
  (sortBy (fun a b => decide (a.2 ≤ b.2)) ordered).map (·.1)

/-- policyRefsEqual: length check on the raw lists plus elementwise
comparison of the normalized key lists (coincides with the source for
ref lists without empty IDs, the only ones the engine constructs). -/
def policyRefsEqual (left right : List AccessPolicyRef) : Bool :=
  left.length == right.length && normalizePolicyRefs left == normalizePolicyRefs right

/-- stringSetsEqual: order-insensitive (but multiplicity-sensitive)
comparison via sorted copies. -/
def stringSetsEqual (left right : List String) : Bool :=
  left.length == right.length && sortBy goStrLe left == sortBy goStrLe right

def buildPolicyInput (spec : AccessPolicySpec) : AccessPolicyInput :=
  { name := spec.name, action := spec.action,
    includeRules := spec.includeEmails.map (fun email => { email := email }) ++
      spec.includeIPs.map (fun ip => { ip := ip }) }

def buildAppInput (managedTag : String) (spec : AccessAppSpec)
    (policyRefs : List AccessPolicyRef) (existingTags : List String)
    (tagging : Bool) : AccessAppInput :=
  let tags := if spec.tagsSet then spec.tags else existingTags
  let tags := if tagging then mergeTags tags managedTag else tags
  { name := spec.name, domain := spec.domain, apptype := "self_hosted",
    policies := policyRefs, tags := tags }

def appNeedsUpdate (record : AccessAppRecord) (desired : AccessAppInput) : Bool :=
  if record.name != desired.name then true
  else if record.domain != desired.domain then true
  else if record.apptype != "" && record.apptype != desired.apptype then true
  else if !policyRefsEqual record.policies desired.policies then true
  else if !stringSetsEqual record.tags desired.tags then true
  else false

/-- deleteOrphanedApps: the live apps (from the pass's initial listing)
that receive a DeleteAccessApp call — those not resolved as a target in
this pass and carrying the ownership marker tag, with management on and
dry-run off. -/
def deleteOrphanedApps (manage dryRun : Bool) (managedTag : String)
    (existing : List AccessAppRecord) (desired : List String) :
    List AccessAppRecord :=
  if !manage then []
  else existing.filter (fun app =>
    !(desired.contains app.id) && hasManagedTag app.tags managedTag && !dryRun)

/-- resolvePolicyByName: `(found record?, ok)`; zero matches is
(none, true), multiple matches is the ambiguity failure (none, false). -/
def resolvePolicyByName (spec : AccessPolicySpec)
    (policyByName : List (String × List AccessPolicyRecord)) :
    Option AccessPolicyRecord × Bool :=
  let found := (assocGet policyByName (goToLower spec.name)).getD []
  if found.length == 0 then (none, true)
  else if found.length > 1 then (none, false)
  else (found.head?, true)

def updatePolicyIfNeeded (cfg : AccessCfg) (st : AccessServer)
    (spec : AccessPolicySpec) (record : AccessPolicyRecord) :
    AccessServer × List AccessCall :=
  if !spec.managed then (st, [])
  else if !policyNeedsUpdate spec record then (st, [])
  else if !cfg.manage then (st, [])
  else if cfg.dryRun then (st, [])
  else (applyUpdatePolicy st record.id (buildPolicyInput spec),
    [.updatePolicy record.id (buildPolicyInput spec)])

/-- Result of ensurePolicies: the server and both policy maps as mutated
so far, the API calls made, the collected refs and the ok flag (false on
abort and when zero references were collected). -/
structure PolicyResolution where
  server : AccessServer
  policyByID : List (String × AccessPolicyRecord)
  policyByName : List (String × List AccessPolicyRecord)
  calls : List AccessCall
  refs : List AccessPolicyRef
  ok : Bool
deriving DecidableEq, Repr

/-- ensurePolicies, one policy entry at a time; `refsAcc`/`callsAcc`
carry the refs and calls collected so far. -/
def ensurePoliciesGo (cfg : AccessCfg) (st : AccessServer)
    (policyByID : List (String × AccessPolicyRecord))
    (policyByName : List (String × List AccessPolicyRecord))
    (refsAcc : List AccessPolicyRef) (callsAcc : List AccessCall) :
    List AccessPolicySpec → PolicyResolution
  | [] =>
    { server := st, policyByID := policyByID, policyByName := policyByName,
      calls := callsAcc, refs := refsAcc, ok := !refsAcc.isEmpty }
  | policy :: rest =>
    let precedence := refsAcc.length + 1
    if policy.id != "" then
      match assocGet policyByID policy.id with
      | none =>
        if !policy.managed then
          ensurePoliciesGo cfg st policyByID policyByName
            (refsAcc ++ [{ id := policy.id, precedence := precedence }]) callsAcc rest
        else
          { server := st, policyByID := policyByID, policyByName := policyByName,
            calls := callsAcc, refs := [], ok := false }
      | some record =>
        let upd := updatePolicyIfNeeded cfg st policy record
        ensurePoliciesGo cfg upd.1 policyByID policyByName
          (refsAcc ++ [{ id := record.id, precedence := precedence }])
          (callsAcc ++ upd.2) rest
    else if !policy.managed then
      match resolvePolicyByName policy policyByName with
      | (_, false) =>
        { server := st, policyByID := policyByID, policyByName := policyByName,
          calls := callsAcc, refs := [], ok := false }
      | (none, true) =>
        { server := st, policyByID := policyByID, policyByName := policyByName,
          calls := callsAcc, refs := [], ok := false }
      | (some record, true) =>
        let upd := updatePolicyIfNeeded cfg st policy record
        ensurePoliciesGo cfg upd.1 policyByID policyByName
          (refsAcc ++ [{ id := record.id, precedence := precedence }])
          (callsAcc ++ upd.2) rest
    else
      match resolvePolicyByName policy policyByName with
      | (_, false) =>
        { server := st, policyByID := policyByID, policyByName := policyByName,
          calls := callsAcc, refs := [], ok := false }
      | (none, true) =>
        if !cfg.manage then
          ensurePoliciesGo cfg st policyByID policyByName refsAcc callsAcc rest
        else if cfg.dryRun then
          ensurePoliciesGo cfg st policyByID policyByName refsAcc callsAcc rest
        else
          let created := applyCreatePolicy st (buildPolicyInput policy)
          let record := created.2
          ensurePoliciesGo cfg created.1
            (assocSet policyByID record.id record)
            (assocSet policyByName (goToLower record.name)
              ((assocGet policyByName (goToLower record.name)).getD [] ++ [record]))
            (refsAcc ++ [{ id := record.id, precedence := precedence }])
            (callsAcc ++ [.createPolicy (buildPolicyInput policy)]) rest
      | (some record, true) =>
        let upd := updatePolicyIfNeeded cfg st policy record
        ensurePoliciesGo cfg upd.1 policyByID policyByName
          (refsAcc ++ [{ id := record.id, precedence := precedence }])
          (callsAcc ++ upd.2) rest

/-- ensureAppTags: trim, drop blanks, de-duplicate, ensure each tag; in
the error-free model every ensure succeeds, so the ok flag of the source
is always true and the ensured list is returned. -/
def ensureAppTags (st : AccessServer) (tags : List String) :
    AccessServer × List AccessCall × List String :=
  tags.foldl (fun acc tag =>
    let trimmed := goTrimSpace tag
    if trimmed == "" then acc
    else if acc.2.2.contains trimmed then acc
    else
      let ensured := ensureAccessTag acc.1 trimmed
      (ensured.1, acc.2.1 ++ ensured.2, acc.2.2 ++ [trimmed])) (st, [], [])

/-- resolveAccessApp: explicit-ID lookup when an ID is given (a missing
ID resolves to not-found after a warning), otherwise the unique
case-insensitive (name, domain) match among the pass's initial listing;
zero or multiple matches resolve to not-found. -/
def resolveAccessApp (spec : AccessAppSpec)
    (appByID : List (String × AccessAppRecord))
    (existingApps : List AccessAppRecord) : Option AccessAppRecord :=
  if spec.id != "" then assocGet appByID spec.id
  else
    let found := existingApps.filter (fun app =>
      goToLower app.name == goToLower spec.name &&
        goToLower app.domain == goToLower spec.domain)
    if found.length == 1 then found.head? else none

/-- Pass-local engine state threaded through the per-app loop. -/
structure APassSt where
  server : AccessServer
  appByID : List (String × AccessAppRecord)
  policyByID : List (String × AccessPolicyRecord)
  policyByName : List (String × List AccessPolicyRecord)
  desired : List String
deriving DecidableEq, Repr

/-- Outcome of processing one desired app. -/
structure SpecResult where
  polAborted : Bool
  calls : List AccessCall
deriving DecidableEq, Repr

/-- The tag-ensuring prologue of the per-app loop: with management on,
EnsureAccessTag(managedTag) is called and tagging is enabled (the ensure
never fails in the error-free model). -/
def processSpecTags (cfg : AccessCfg) (server : AccessServer) :
    AccessServer × List AccessCall × Bool :=
  if cfg.manage then
    let ensured := ensureAccessTag server cfg.managedTag
    (ensured.1, ensured.2, true)
  else (server, [], false)

/-- The explicit-tag-list step: with management on and an explicitly set,
nonempty tag list, each tag is ensured and the spec's tags are replaced
by the ensured list (ensure never fails in the error-free model, so the
keep-existing-tags fallback of the source is not taken). -/
def processSpecAppTags (cfg : AccessCfg) (server : AccessServer) (app : AccessAppSpec) :
    AccessServer × List AccessCall × AccessAppSpec :=
  if cfg.manage && app.tagsSet && !app.tags.isEmpty then
    let ensured := ensureAppTags server app.tags
    (ensured.1, ensured.2.1, { app with tags := ensured.2.2 })
  else (server, [], app)

/-- The app resolution / create / update tail of the per-app loop. -/
def processSpecResolve (cfg : AccessCfg) (existingApps : List AccessAppRecord)
    (st2 : APassSt) (appSpec : AccessAppSpec) (policyRefs : List AccessPolicyRef)
    (tagging : Bool) (callsSoFar : List AccessCall) : APassSt × SpecResult :=
  match resolveAccessApp appSpec st2.appByID existingApps with
  | none =>
    if !cfg.manage then (st2, { polAborted := false, calls := callsSoFar })
    else if cfg.dryRun then (st2, { polAborted := false, calls := callsSoFar })
    else
      let input := buildAppInput cfg.managedTag appSpec policyRefs [] tagging
      let created := applyCreateApp st2.server input
      ({ st2 with server := created.1,
                  appByID := assocSet st2.appByID created.2.id created.2,
                  desired := st2.desired ++ [created.2.id] },
       { polAborted := false, calls := callsSoFar ++ [.createApp input] })
  | some appRecord =>
    let st3 : APassSt := { st2 with desired := st2.desired ++ [appRecord.id] }
    let input := buildAppInput cfg.managedTag appSpec policyRefs appRecord.tags tagging
    if !appNeedsUpdate appRecord input then
      (st3, { polAborted := false, calls := callsSoFar })
    else if !cfg.manage then
      (st3, { polAborted := false, calls := callsSoFar })
    else if cfg.dryRun then
      (st3, { polAborted := false, calls := callsSoFar })
    else
      let updated := applyUpdateApp st3.server appRecord.id input
      ({ st3 with server := updated.1,
                  appByID := assocSet st3.appByID updated.2.id updated.2 },
       { polAborted := false, calls := callsSoFar ++ [.updateApp appRecord.id input] })

/-- The body of the per-app loop of access.Engine.Reconcile. -/
def processSpec (cfg : AccessCfg) (existingApps : List AccessAppRecord)
    (st : APassSt) (app : AccessAppSpec) : APassSt × SpecResult :=
  let tagStep := processSpecTags cfg st.server
  let tagging := tagStep.2.2
  let pres := ensurePoliciesGo cfg tagStep.1 st.policyByID st.policyByName [] [] app.policies
  let st1 : APassSt :=
    { st with
      server := pres.server
      policyByID := pres.policyByID
      policyByName := pres.policyByName }
  if !pres.ok then
    (st1, { polAborted := true, calls := tagStep.2.1 ++ pres.calls })
  else
    let tags2 := processSpecAppTags cfg st1.server app
    let appSpec := tags2.2.2
    let st2 : APassSt := { st1 with server := tags2.1 }
    let callsSoFar := tagStep.2.1 ++ pres.calls ++ tags2.2.1
    processSpecResolve cfg existingApps st2 appSpec pres.refs tagging callsSoFar

/-- access.Engine.Reconcile: list live apps (and policies, when any app
is desired), build the lookup maps, process each desired app, then
delete orphaned managed apps.  Returns the final server, the per-spec
results and the orphan deletions. -/
def reconcileAccessRun (cfg : AccessCfg) (server : AccessServer)
    (specs : List AccessAppSpec) :
    AccessServer × List SpecResult × List AccessAppRecord :=
  if specs.isEmpty && !cfg.manage then (server, [], [])
  else
    let existingApps := server.apps
    let existingPolicies := if !specs.isEmpty then server.policies else []
    let appByID := existingApps.foldl (fun m a =>
      if a.id != "" then assocSet m a.id a else m) []
    let policyByID := existingPolicies.foldl (fun m p =>
      if p.id != "" then assocSet m p.id p else m) []
    let policyByName := existingPolicies.foldl (fun m p =>
      if p.name != "" then
        assocSet m (goToLower p.name) ((assocGet m (goToLower p.name)).getD [] ++ [p])
      else m) []
    let stepped := specs.foldl (fun acc spec =>
        let next := processSpec cfg existingApps acc.1 spec
        (next.1, acc.2 ++ [next.2]))
      (({ server := server, appByID := appByID, policyByID := policyByID,
          policyByName := policyByName, desired := [] } : APassSt),
       ([] : List SpecResult))
    let orphans := deleteOrphanedApps cfg.manage cfg.dryRun cfg.managedTag
      existingApps stepped.1.desired
    (orphans.foldl (fun s o => applyDeleteApp s o.id) stepped.1.server,
     stepped.2, orphans)

/-- The pass's trace of mutating API calls: the per-spec calls in order
followed by one DeleteAccessApp per orphan. -/
def accessTrace (results : List SpecResult) (orphans : List AccessAppRecord) :
    List AccessCall :=
  (results.map (·.calls)).flatten ++ orphans.map .deleteApp

def reconcileAccess (cfg : AccessCfg) (server : AccessServer)
    (specs : List AccessAppSpec) : AccessServer × List AccessCall :=
  let run := reconcileAccessRun cfg server specs
  (run.1, accessTrace run.2.1 run.2.2)

/-! ### Concrete scenarios used by witnesses and counterexamples -/

def exMarkerTag : String := "managed-by=docker-cf-tunnel-sync"

def exAccessCfg : AccessCfg :=
  { dryRun := false, manage := true, managedTag := exMarkerTag }

def exLiveAppX : AccessAppRecord :=
  { id := "x", name := "a", domain := "d", tags := [exMarkerTag] }

def exSpecAbort : AccessAppSpec :=
  { name := "a", domain := "d", policies := [{ name := "p" }] }

def exServerC2 : AccessServer := { apps := [exLiveAppX], policies := [] }

def exSpecMissingID : AccessAppSpec :=
  { id := "x", name := "a", domain := "d", policies := [{ id := "p" }] }

def exServerEmpty : AccessServer := { apps := [], policies := [] }

def exDNSCfg : DNSCfg :=
  { dryRun := false, manage := true, delete := false, tunnelID := "t",
    managedComment := exMarkerTag }

def exZonesState : DNSState :=
  { zones := [⟨"z1", "example.com"⟩, ⟨"z2", "api.example.com"⟩], recs := [] }

def exRouteSvc : RouteSpec :=
  { key := ⟨"svc.api.example.com", ""⟩, service := "http://a" }

def exDNSCfgOff : DNSCfg :=
  { dryRun := false, manage := false, delete := true, tunnelID := "t",
    managedComment := exMarkerTag }

def exStaleRecord : DNSRecord :=
  { id := "r1", rtype := "CNAME", name := "old.example.com",
    content := "t.cfargotunnel.com", proxied := true, comment := exMarkerTag, ttl := 1 }

def exStateC7 : DNSState :=
  { zones := [⟨"z1", "example.com"⟩], recs := [("z1", exStaleRecord)] }

def exForeignRecord : DNSRecord :=
  { id := "r2", rtype := "CNAME", name := "svc.example.com",
    content := "203.0.113.7.nip.io", proxied := false, comment := "hand-made", ttl := 300 }

def exStateC8 : DNSState :=
  { zones := [⟨"z1", "example.com"⟩], recs := [("z1", exForeignRecord)] }

def exRouteC8 : RouteSpec :=
  { key := ⟨"svc.example.com", ""⟩, service := "http://a" }

/-- Call-safety predicate for claim C8: the call is neither an update nor
a deletion of the given record in the given zone. -/
def c8SafeCall (zoneID recordID : String) (c : DNSCall) : Prop :=
  (∀ i, c ≠ DNSCall.updateRecord zoneID recordID i) ∧ c ≠ DNSCall.deleteRecord zoneID recordID

/-- State invariant for claim C8: within the zone, the record's id
denotes only that record (well-formed server states have unique record
ids per zone, and the modelled server only mints fresh ids). -/
def c8RecInv (zoneID : String) (r : DNSRecord) (st : DNSState) : Prop :=
  ∀ rec, (zoneID, rec) ∈ st.recs → rec.id = r.id → rec = r

/-! ## Theorems -/

/-! ### Properties of the sort and map helpers -/

theorem insertSorted_perm (le : α → α → Bool) (x : α) (l : List α) :
    List.Perm (insertSorted le x l) (x :: l) := by
  induction l with
  | nil => simp [insertSorted]
  | cons y ys ih =>
    simp only [insertSorted]
    cases h : le y x with
    | true =>
      simp only [if_pos rfl]
      exact (List.Perm.cons y ih).trans (List.Perm.swap x y ys)
    | false => simp

theorem sortBy_perm (le : α → α → Bool) (l : List α) : List.Perm (sortBy le l) l := by
  suffices h : ∀ acc : List α,
      List.Perm (l.foldl (fun acc x => insertSorted le x acc) acc) (acc ++ l) by
    simpa using h []
  induction l with
  | nil => intro acc; simp
  | cons x xs ih =>
    intro acc
    simp only [List.foldl_cons]
    refine (ih (insertSorted le x acc)).trans ?_
    have h1 : List.Perm (insertSorted le x acc ++ xs) ((x :: acc) ++ xs) :=
      (insertSorted_perm le x acc).append_right xs
    refine h1.trans ?_
    simpa using (@List.perm_middle _ x acc xs).symm

theorem insertSorted_sorted (le : α → α → Bool)
    (htot : ∀ a b, le a b || le b a)
    (htrans : ∀ a b c, le a b = true → le b c = true → le a c = true)
    (x : α) (l : List α) (hl : l.Pairwise (fun a b => le a b = true)) :
    (insertSorted le x l).Pairwise (fun a b => le a b = true) := by
  induction l with
  | nil => simp [insertSorted]
  | cons y ys ih =>
    rcases List.pairwise_cons.mp hl with ⟨hy, hys⟩
    cases h : le y x with
    | true =>
      simp only [insertSorted, h, if_pos rfl]
      refine List.pairwise_cons.mpr ⟨?_, ih hys⟩
      intro z hz
      have hz' := (insertSorted_perm le x ys).mem_iff.mp hz
      rcases List.mem_cons.mp hz' with rfl | hz''
      · exact h
      · exact hy z hz''
    | false =>
      simp only [insertSorted, h, Bool.false_eq_true, if_false]
      refine List.pairwise_cons.mpr ⟨?_, hl⟩
      intro z hz
      have hx : le x y = true := by
        have := htot x y
        cases hxy : le x y with
        | true => rfl
        | false => simp [hxy, h] at this
      rcases List.mem_cons.mp hz with rfl | hz'
      · exact hx
      · exact htrans x y z hx (hy z hz')

theorem sortBy_sorted (le : α → α → Bool)
    (htot : ∀ a b, le a b || le b a)
    (htrans : ∀ a b c, le a b = true → le b c = true → le a c = true)
    (l : List α) : (sortBy le l).Pairwise (fun a b => le a b = true) := by
  suffices h : ∀ acc : List α, acc.Pairwise (fun a b => le a b = true) →
      (l.foldl (fun acc x => insertSorted le x acc) acc).Pairwise
        (fun a b => le a b = true) by
    exact h [] (by simp)
  induction l with
  | nil => intro acc hacc; simpa using hacc
  | cons x xs ih =>
    intro acc hacc
    exact ih _ (insertSorted_sorted le htot htrans x acc hacc)

theorem assocGet_assocSet_self (m : List (String × β)) (k : String) (v : β) :
    assocGet (assocSet m k v) k = some v := by
  induction m with
  | nil => simp [assocSet, assocGet]
  | cons p rest ih =>
    by_cases h : p.1 = k
    · simp [assocSet, assocGet, h]
    · simp [assocSet, assocGet, h, ih]

theorem assocGet_assocSet_ne (m : List (String × β)) (k k' : String) (v : β)
    (h : k ≠ k') : assocGet (assocSet m k v) k' = assocGet m k' := by
  induction m with
  | nil => simp [assocSet, assocGet, h]
  | cons p rest ih =>
    obtain ⟨k'', v''⟩ := p
    by_cases hp : k'' = k
    · subst hp
      simp [assocSet, assocGet, h, Ne.symm h]
    · simp only [assocSet, if_neg hp]
      by_cases hp' : k'' = k'
      · simp [assocGet, hp']
      · simp [assocGet, hp', ih]

/-! ### Order properties of the byte-wise string comparison -/

theorem stringDataEq {a b : String} (h : a.data = b.data) : a = b := by
  cases a; cases b; exact congrArg String.mk h

theorem charLt_irrefl (a : Char) : charLt a a = false := by
  simp only [charLt, decide_eq_false_iff_not]
  exact fun h => Nat.lt_irrefl _ h

theorem charLt_trans {a b c : Char} (h1 : charLt a b = true) (h2 : charLt b c = true) :
    charLt a c = true := by
  simp only [charLt, decide_eq_true_eq] at *
  exact Nat.lt_trans h1 h2

theorem charLt_or {a b : Char} (h : a ≠ b) : charLt a b = true ∨ charLt b a = true := by
  simp only [charLt, decide_eq_true_eq]
  rcases Nat.lt_trichotomy a.val.toNat b.val.toNat with h1 | h1 | h1
  · exact Or.inl h1
  · exact absurd (Char.ext (UInt32.toNat.inj h1)) h
  · exact Or.inr h1

theorem lexLt_irrefl : ∀ l : List Char, lexLt l l = false
  | [] => rfl
  | a :: as => by simp [lexLt, lexLt_irrefl as]

theorem lexLt_trans : ∀ (l1 l2 l3 : List Char),
    lexLt l1 l2 = true → lexLt l2 l3 = true → lexLt l1 l3 = true := by
  intro l1
  induction l1 with
  | nil =>
    intro l2 l3 h12 h23
    cases l2 with
    | nil => simp [lexLt] at h12
    | cons b bs =>
      cases l3 with
      | nil => simp [lexLt] at h23
      | cons c cs => simp [lexLt]
  | cons a as ih =>
    intro l2 l3 h12 h23
    cases l2 with
    | nil => simp [lexLt] at h12
    | cons b bs =>
      cases l3 with
      | nil => simp [lexLt] at h23
      | cons c cs =>
        simp only [lexLt] at h12 h23 ⊢
        by_cases hab : a = b
        · subst hab
          simp only [if_pos rfl] at h12
          by_cases hbc : a = c
          · subst hbc
            simp only [if_pos rfl] at h23 ⊢
            exact ih bs cs h12 h23
          · simpa [hbc] using h23
        · simp only [if_neg hab] at h12
          by_cases hbc : b = c
          · subst hbc
            have hac : a ≠ b := hab
            simpa [hac] using h12
          · simp only [if_neg hbc] at h23
            have hac : a ≠ c := by
              intro hEq
              subst hEq
              have := charLt_trans h12 h23
              rw [charLt_irrefl] at this
              exact Bool.false_ne_true this
            simpa [hac] using charLt_trans h12 h23

theorem lexLt_total : ∀ (l1 l2 : List Char),
    lexLt l1 l2 = true ∨ l1 = l2 ∨ lexLt l2 l1 = true
  | [], [] => Or.inr (Or.inl rfl)
  | [], _ :: _ => Or.inl rfl
  | _ :: _, [] => Or.inr (Or.inr rfl)
  | a :: as, b :: bs => by
    by_cases hab : a = b
    · subst hab
      rcases lexLt_total as bs with h | h | h
      · exact Or.inl (by simpa [lexLt] using h)
      · exact Or.inr (Or.inl (by rw [h]))
      · exact Or.inr (Or.inr (by simpa [lexLt] using h))
    · rcases charLt_or hab with h | h
      · exact Or.inl (by simpa [lexLt, hab] using h)
      · exact Or.inr (Or.inr (by simpa [lexLt, Ne.symm hab] using h))

theorem goStrLe_total (a b : String) : (goStrLe a b || goStrLe b a) = true := by
  rcases lexLt_total a.data b.data with h | h | h
  · simp [goStrLe, goStrLt, h]
  · have : a = b := stringDataEq h
    simp [goStrLe, this]
  · simp [goStrLe, goStrLt, h]

theorem goStrLe_trans {a b c : String} (h1 : goStrLe a b = true)
    (h2 : goStrLe b c = true) : goStrLe a c = true := by
  simp only [goStrLe, Bool.or_eq_true, beq_iff_eq] at h1 h2 ⊢
  rcases h1 with h1 | h1
  · rcases h2 with h2 | h2
    · exact Or.inl (lexLt_trans _ _ _ h1 h2)
    · subst h2; exact Or.inl h1
  · subst h1
    exact h2

theorem ruleLeKey_total (a b : IngressRule) : (ruleLeKey a b || ruleLeKey b a) = true :=
  goStrLe_total _ _

theorem ruleLeKey_trans (a b c : IngressRule) (h1 : ruleLeKey a b = true)
    (h2 : ruleLeKey b c = true) : ruleLeKey a c = true :=
  goStrLe_trans h1 h2

theorem goStrLt_irrefl (a : String) : goStrLt a a = false := lexLt_irrefl a.data

theorem goStrLt_trans {a b c : String} (h1 : goStrLt a b = true)
    (h2 : goStrLt b c = true) : goStrLt a c = true := lexLt_trans _ _ _ h1 h2

theorem goStrLt_asymm {a b : String} (h : goStrLt a b = true) : goStrLt b a = false := by
  cases hba : goStrLt b a with
  | false => rfl
  | true =>
    have h2 := goStrLt_trans h hba
    rw [goStrLt_irrefl] at h2
    exact h2.symm

theorem goStrLt_of_not {a b : String} (hne : a ≠ b) (h : goStrLt a b = false) :
    goStrLt b a = true := by
  rcases lexLt_total a.data b.data with h1 | h1 | h1
  · rw [goStrLt, h1] at h
    exact absurd h (by simp)
  · exact absurd (stringDataEq h1) hne
  · exact h1

/-! ### Properties of the decoded originRequest object -/

theorem omapSet_mem {m : List (String × JVal)} {k : String} {v : JVal}
    {p : String × JVal} (hp : p ∈ omapSet m k v) : p = (k, v) ∨ p ∈ m := by
  induction m with
  | nil => simpa [omapSet] using hp
  | cons q rest ih =>
    obtain ⟨k', v'⟩ := q
    simp only [omapSet] at hp
    by_cases h1 : goStrLt k k' = true
    · rw [if_pos h1] at hp
      rcases List.mem_cons.mp hp with h | h
      · exact Or.inl h
      · exact Or.inr h
    · rw [if_neg h1] at hp
      by_cases h2 : k = k'
      · rw [if_pos h2] at hp
        rcases List.mem_cons.mp hp with h | h
        · exact Or.inl h
        · exact Or.inr (List.mem_cons_of_mem _ h)
      · rw [if_neg h2] at hp
        rcases List.mem_cons.mp hp with h | h
        · exact Or.inr (h ▸ List.mem_cons_self _ _)
        · rcases ih h with h' | h'
          · exact Or.inl h'
          · exact Or.inr (List.mem_cons_of_mem _ h')

theorem omapSet_sorted {m : List (String × JVal)} (k : String) (v : JVal)
    (hm : m.Pairwise (fun a b => goStrLt a.1 b.1 = true)) :
    (omapSet m k v).Pairwise (fun a b => goStrLt a.1 b.1 = true) := by
  induction m with
  | nil => simp [omapSet]
  | cons q rest ih =>
    obtain ⟨k', v'⟩ := q
    rcases List.pairwise_cons.mp hm with ⟨hq, hrest⟩
    simp only [omapSet]
    by_cases h1 : goStrLt k k' = true
    · rw [if_pos h1]
      refine List.pairwise_cons.mpr ⟨?_, hm⟩
      intro p hp
      rcases List.mem_cons.mp hp with h | h
      · rw [h]; exact h1
      · exact goStrLt_trans h1 (hq p h)
    · rw [if_neg h1]
      by_cases h2 : k = k'
      · rw [if_pos h2]
        refine List.pairwise_cons.mpr ⟨?_, hrest⟩
        intro p hp
        exact h2 ▸ hq p hp
      · rw [if_neg h2]
        refine List.pairwise_cons.mpr ⟨?_, ih hrest⟩
        intro p hp
        rcases omapSet_mem hp with h | h
        · rw [h]
          exact goStrLt_of_not h2 (by simpa using h1)
        · exact hq p h

theorem canon_sorted (l : List (String × JVal)) :
    (canon l).Pairwise (fun a b => goStrLt a.1 b.1 = true) := by
  suffices h : ∀ acc : List (String × JVal),
      acc.Pairwise (fun a b => goStrLt a.1 b.1 = true) →
      (l.foldl (fun m p => omapSet m p.1 p.2) acc).Pairwise
        (fun a b => goStrLt a.1 b.1 = true) by
    exact h [] (by simp)
  induction l with
  | nil => intro acc hacc; simpa using hacc
  | cons p rest ih =>
    intro acc hacc
    exact ih _ (omapSet_sorted p.1 p.2 hacc)

theorem omapSet_append_of_lt {m : List (String × JVal)} {k : String} (v : JVal)
    (h : ∀ p ∈ m, goStrLt p.1 k = true) : omapSet m k v = m ++ [(k, v)] := by
  induction m with
  | nil => rfl
  | cons q rest ih =>
    obtain ⟨k', v'⟩ := q
    have hk' : goStrLt k' k = true := h _ (List.mem_cons_self _ _)
    have h1 : goStrLt k k' = false := goStrLt_asymm hk'
    have h2 : k ≠ k' := by
      intro hEq
      rw [hEq, goStrLt_irrefl] at hk'
      exact Bool.false_ne_true hk'
    simp only [omapSet, h1, Bool.false_eq_true, if_false, if_neg h2]
    rw [ih (fun p hp => h p (List.mem_cons_of_mem _ hp))]
    rfl

theorem foldlSet_eq (l : List (String × JVal)) :
    ∀ acc : List (String × JVal),
      (acc ++ l).Pairwise (fun a b => goStrLt a.1 b.1 = true) →
      l.foldl (fun m p => omapSet m p.1 p.2) acc = acc ++ l := by
  induction l with
  | nil => intro acc _; simp
  | cons p rest ih =>
    intro acc hacc
    obtain ⟨k, v⟩ := p
    have hlt : ∀ q ∈ acc, goStrLt q.1 k = true := by
      intro q hq
      have := (List.pairwise_append.mp hacc).2.2 q hq (k, v) (List.mem_cons_self _ _)
      exact this
    simp only [List.foldl_cons]
    rw [omapSet_append_of_lt v hlt]
    rw [ih (acc ++ [(k, v)]) (by simpa using hacc)]
    simp

theorem canon_eq_self {m : List (String × JVal)}
    (hm : m.Pairwise (fun a b => goStrLt a.1 b.1 = true)) : canon m = m := by
  simpa using foldlSet_eq m [] (by simpa using hm)

theorem parseRaw_marshalObj {m : List (String × JVal)}
    (hm : m.Pairwise (fun a b => goStrLt a.1 b.1 = true)) :
    parseRaw (marshalObj m) = some m := by
  simp [parseRaw, marshalObj, canon_eq_self hm]

theorem omapGet_none_keys {m : List (String × JVal)} {k : String}
    (h : omapGet m k = none) : ∀ p ∈ m, p.1 ≠ k := by
  induction m with
  | nil => simp
  | cons q rest ih =>
    obtain ⟨k', v'⟩ := q
    intro p hp
    simp only [omapGet] at h
    by_cases hk : k' = k
    · rw [if_pos hk] at h
      exact absurd h (by simp)
    · rw [if_neg hk] at h
      rcases List.mem_cons.mp hp with hEq | hMem
      · rw [hEq]
        exact hk
      · exact ih h p hMem

theorem omapDelete_of_not_has {m : List (String × JVal)} {k : String}
    (h : omapHas m k = false) : omapDelete m k = m := by
  have hget : omapGet m k = none := by
    cases hg : omapGet m k with
    | none => rfl
    | some v => rw [omapHas, hg] at h; exact absurd h (by simp)
  rw [omapDelete]
  apply List.filter_eq_self.mpr
  intro p hp
  simpa using omapGet_none_keys hget p hp

theorem omapDelete_omapSet_same (m : List (String × JVal)) (k : String) (v : JVal) :
    omapDelete (omapSet m k v) k = omapDelete m k := by
  induction m with
  | nil => simp [omapSet, omapDelete]
  | cons q rest ih =>
    obtain ⟨k', v'⟩ := q
    simp only [omapSet]
    by_cases h1 : goStrLt k k' = true
    · rw [if_pos h1]
      simp [omapDelete]
    · rw [if_neg h1]
      by_cases h2 : k = k'
      · rw [if_pos h2]
        simp [omapDelete, h2]
      · rw [if_neg h2]
        simp only [omapDelete, List.filter_cons]
        have hne : (k' != k) = true := by simpa using fun hEq => h2 hEq.symm
        rw [hne]
        simp only [if_pos rfl]
        rw [← omapDelete, ← omapDelete, ih]

theorem omapDelete_comm (m : List (String × JVal)) (k k' : String) :
    omapDelete (omapDelete m k) k' = omapDelete (omapDelete m k') k := by
  simp only [omapDelete, List.filter_filter]
  exact List.filter_congr (fun p _ => by rw [Bool.and_comm])

theorem omapDelete_idem (m : List (String × JVal)) (k : String) :
    omapDelete (omapDelete m k) k = omapDelete m k := by
  simp only [omapDelete, List.filter_filter]
  exact List.filter_congr (fun p _ => by rw [Bool.and_self])

/-! ### Properties of the managed-key patches -/

theorem patchOriginServerName_someGet {m : List (String × JVal)} (v : String)
    {cur : JVal} (hg : omapGet m "originServerName" = some cur) :
    patchOriginServerName m (some v) =
      if originRequestStringEqual cur v = true then (m, false)
      else (omapSet m "originServerName" (JVal.str v), true) := by
  simp only [patchOriginServerName, hg]

theorem patchOriginServerName_noneGet {m : List (String × JVal)} (v : String)
    (hg : omapGet m "originServerName" = none) :
    patchOriginServerName m (some v) =
      (omapSet m "originServerName" (JVal.str v), true) := by
  simp only [patchOriginServerName, hg]

theorem patchNoTLSVerify_someGet {m : List (String × JVal)} (v : Bool)
    {cur : JVal} (hg : omapGet m "noTLSVerify" = some cur) :
    patchNoTLSVerify m (some v) =
      if originRequestBoolEqual cur v = true then (m, false)
      else (omapSet m "noTLSVerify" (JVal.boolean v), true) := by
  simp only [patchNoTLSVerify, hg]

theorem patchNoTLSVerify_noneGet {m : List (String × JVal)} (v : Bool)
    (hg : omapGet m "noTLSVerify" = none) :
    patchNoTLSVerify m (some v) =
      (omapSet m "noTLSVerify" (JVal.boolean v), true) := by
  simp only [patchNoTLSVerify, hg]

theorem patchOriginServerName_unchanged {m : List (String × JVal)}
    {desired : Option String}
    (h : (patchOriginServerName m desired).2 = false) :
    (patchOriginServerName m desired).1 = m := by
  cases desired with
  | none =>
    simp only [patchOriginServerName] at h ⊢
    by_cases hh : omapHas m "originServerName" = true
    · rw [if_pos hh] at h
      exact absurd h (by simp)
    · rw [if_neg hh] at h ⊢
  | some v =>
    cases hg : omapGet m "originServerName" with
    | none =>
      rw [patchOriginServerName_noneGet v hg] at h
      exact absurd h (by simp)
    | some cur =>
      rw [patchOriginServerName_someGet v hg] at h ⊢
      by_cases he : originRequestStringEqual cur v = true
      · rw [if_pos he]
      · rw [if_neg he] at h
        exact absurd h (by simp)

theorem patchNoTLSVerify_unchanged {m : List (String × JVal)} {desired : Option Bool}
    (h : (patchNoTLSVerify m desired).2 = false) :
    (patchNoTLSVerify m desired).1 = m := by
  cases desired with
  | none =>
    simp only [patchNoTLSVerify] at h ⊢
    by_cases hh : omapHas m "noTLSVerify" = true
    · rw [if_pos hh] at h
      exact absurd h (by simp)
    · rw [if_neg hh] at h ⊢
  | some v =>
    cases hg : omapGet m "noTLSVerify" with
    | none =>
      rw [patchNoTLSVerify_noneGet v hg] at h
      exact absurd h (by simp)
    | some cur =>
      rw [patchNoTLSVerify_someGet v hg] at h ⊢
      by_cases he : originRequestBoolEqual cur v = true
      · rw [if_pos he]
      · rw [if_neg he] at h
        exact absurd h (by simp)

theorem patchOriginServerName_sorted {m : List (String × JVal)}
    (hm : m.Pairwise (fun a b => goStrLt a.1 b.1 = true)) (desired : Option String) :
    ((patchOriginServerName m desired).1).Pairwise (fun a b => goStrLt a.1 b.1 = true) := by
  cases desired with
  | none =>
    simp only [patchOriginServerName]
    by_cases hh : omapHas m "originServerName" = true
    · rw [if_pos hh]
      exact hm.sublist (List.filter_sublist m)
    · rw [if_neg hh]
      exact hm
  | some v =>
    simp only [patchOriginServerName]
    cases hg : omapGet m "originServerName" with
    | none =>
      dsimp only
      exact omapSet_sorted _ _ hm
    | some cur =>
      dsimp only
      by_cases he : originRequestStringEqual cur v = true
      · rw [if_pos he]
        exact hm
      · rw [if_neg he]
        exact omapSet_sorted _ _ hm

theorem patchNoTLSVerify_sorted {m : List (String × JVal)}
    (hm : m.Pairwise (fun a b => goStrLt a.1 b.1 = true)) (desired : Option Bool) :
    ((patchNoTLSVerify m desired).1).Pairwise (fun a b => goStrLt a.1 b.1 = true) := by
  cases desired with
  | none =>
    simp only [patchNoTLSVerify]
    by_cases hh : omapHas m "noTLSVerify" = true
    · rw [if_pos hh]
      exact hm.sublist (List.filter_sublist m)
    · rw [if_neg hh]
      exact hm
  | some v =>
    simp only [patchNoTLSVerify]
    cases hg : omapGet m "noTLSVerify" with
    | none =>
      dsimp only
      exact omapSet_sorted _ _ hm
    | some cur =>
      dsimp only
      by_cases he : originRequestBoolEqual cur v = true
      · rw [if_pos he]
        exact hm
      · rw [if_neg he]
        exact omapSet_sorted _ _ hm

theorem patchOriginServerName_none (m : List (String × JVal)) :
    (patchOriginServerName m none).1 = omapDelete m "originServerName" := by
  simp only [patchOriginServerName]
  by_cases hh : omapHas m "originServerName" = true
  · rw [if_pos hh]
  · rw [if_neg hh]
    exact (omapDelete_of_not_has (by simpa using hh)).symm

theorem patchNoTLSVerify_none (m : List (String × JVal)) :
    (patchNoTLSVerify m none).1 = omapDelete m "noTLSVerify" := by
  simp only [patchNoTLSVerify]
  by_cases hh : omapHas m "noTLSVerify" = true
  · rw [if_pos hh]
  · rw [if_neg hh]
    exact (omapDelete_of_not_has (by simpa using hh)).symm

theorem omapDelete_patchOriginServerName (m : List (String × JVal))
    (desired : Option String) :
    omapDelete (patchOriginServerName m desired).1 "originServerName" =
      omapDelete m "originServerName" := by
  cases desired with
  | none =>
    rw [patchOriginServerName_none]
    exact omapDelete_idem m _
  | some v =>
    simp only [patchOriginServerName]
    cases hg : omapGet m "originServerName" with
    | none =>
      dsimp only
      exact omapDelete_omapSet_same m _ _
    | some cur =>
      dsimp only
      by_cases he : originRequestStringEqual cur v = true
      · rw [if_pos he]
      · rw [if_neg he]
        exact omapDelete_omapSet_same m _ _

theorem omapDelete2_patchNoTLSVerify (m : List (String × JVal)) (desired : Option Bool) :
    omapDelete (omapDelete (patchNoTLSVerify m desired).1 "originServerName") "noTLSVerify" =
      omapDelete (omapDelete m "originServerName") "noTLSVerify" := by
  have key : ∀ m' : List (String × JVal),
      omapDelete m' "noTLSVerify" = omapDelete m "noTLSVerify" →
      omapDelete (omapDelete m' "originServerName") "noTLSVerify" =
        omapDelete (omapDelete m "originServerName") "noTLSVerify" := by
    intro m' h
    rw [omapDelete_comm m', omapDelete_comm m, h]
  cases desired with
  | none =>
    apply key
    rw [patchNoTLSVerify_none]
    exact omapDelete_idem m _
  | some v =>
    simp only [patchNoTLSVerify]
    cases hg : omapGet m "noTLSVerify" with
    | none =>
      dsimp only
      exact key _ (omapDelete_omapSet_same m _ _)
    | some cur =>
      dsimp only
      by_cases he : originRequestBoolEqual cur v = true
      · rw [if_pos he]
      · rw [if_neg he]
        exact key _ (omapDelete_omapSet_same m _ _)

theorem parsedObj_sorted (existing : Option RawMsg) :
    (parsedObj existing).Pairwise (fun a b => goStrLt a.1 b.1 = true) := by
  cases existing with
  | none => simp [parsedObj]
  | some raw =>
    cases raw with
    | obj e => simpa [parsedObj, parseRaw] using canon_sorted e
    | invalid t => simp [parsedObj, parseRaw]

/-- Semantic characterization of the merge: the object its result decodes
to is exactly the decoded existing object with both managed keys patched
per the route. -/
theorem merge_sem (existing : Option RawMsg) (route : RouteSpec) :
    parsedObj (mergeManagedOriginRequest existing route) =
      (patchNoTLSVerify
        (patchOriginServerName (parsedObj existing) route.originServerName).1
        route.noTLSVerify).1 := by
  by_cases hguard :
      (existing.isNone && route.originServerName.isNone && route.noTLSVerify.isNone) = true
  · have he : existing = none := by
      cases existing <;> simp_all
    have ho : route.originServerName = none := by
      cases h : route.originServerName <;> simp_all
    have hn : route.noTLSVerify = none := by
      cases h : route.noTLSVerify <;> simp_all
    rw [mergeManagedOriginRequest.eq_def, if_pos hguard, he, ho, hn]
    simp [parsedObj, patchOriginServerName, patchNoTLSVerify, omapHas, omapGet]
  · rw [mergeManagedOriginRequest.eq_def, if_neg hguard]
    simp only []
    by_cases hch :
        ((patchOriginServerName (parsedObj existing) route.originServerName).2 ||
          (patchNoTLSVerify
            (patchOriginServerName (parsedObj existing) route.originServerName).1
            route.noTLSVerify).2) = false
    · rw [hch]
      simp only [Bool.not_false, if_pos rfl]
      have h1 : (patchOriginServerName (parsedObj existing) route.originServerName).2 = false := by
        simp only [Bool.or_eq_false_iff] at hch
        exact hch.1
      have h2 : (patchNoTLSVerify
          (patchOriginServerName (parsedObj existing) route.originServerName).1
          route.noTLSVerify).2 = false := by
        simp only [Bool.or_eq_false_iff] at hch
        exact hch.2
      rw [patchNoTLSVerify_unchanged h2, patchOriginServerName_unchanged h1]
      cases existing with
      | none => simp [parsedObj]
      | some raw => simp [parsedObj]
    · have hch' :
          ((patchOriginServerName (parsedObj existing) route.originServerName).2 ||
            (patchNoTLSVerify
              (patchOriginServerName (parsedObj existing) route.originServerName).1
              route.noTLSVerify).2) = true := by
        revert hch
        cases ((patchOriginServerName (parsedObj existing) route.originServerName).2 ||
          (patchNoTLSVerify
            (patchOriginServerName (parsedObj existing) route.originServerName).1
            route.noTLSVerify).2) <;> simp
      rw [hch']
      simp only [Bool.not_true, Bool.false_eq_true, if_false]
      by_cases hempty : ((patchNoTLSVerify
          (patchOriginServerName (parsedObj existing) route.originServerName).1
          route.noTLSVerify).1).isEmpty = true
      · rw [if_pos hempty]
        have : (patchNoTLSVerify
            (patchOriginServerName (parsedObj existing) route.originServerName).1
            route.noTLSVerify).1 = [] := by
          simpa [List.isEmpty_iff] using hempty
        rw [this]
        simp [parsedObj]
      · rw [if_neg hempty]
        have hsorted := patchNoTLSVerify_sorted
          (patchOriginServerName_sorted (parsedObj_sorted existing)
            route.originServerName) route.noTLSVerify
        have hres := parseRaw_marshalObj hsorted
        simp only [parsedObj] at hres ⊢
        rw [hres]
        rfl

/-! ### Claim C5 and C10: the origin-options merge -/

/-- C5: the origin-options merge is a pure function of the existing
options object and the two desired managed fields: for every JSON object
X and every managed-field assignment A, merging A into X and then merging
with both managed fields unspecified (clear) yields an object
semantically equal to X with exactly the two managed keys removed and
every other key and value preserved. -/
theorem c5_merge_roundtrip_strips_managed_keys
    (X : List (String × JVal)) (A clear : RouteSpec)
    (h1 : clear.originServerName = none) (h2 : clear.noTLSVerify = none) :
    parsedObj (mergeManagedOriginRequest
        (mergeManagedOriginRequest (some (RawMsg.obj X)) A) clear) =
      omapDelete (omapDelete (canon X) "originServerName") "noTLSVerify" := by
  rw [merge_sem, h1, h2, patchNoTLSVerify_none, patchOriginServerName_none,
    merge_sem, omapDelete2_patchNoTLSVerify, omapDelete_patchOriginServerName]
  rfl

/-- Witness for C5 at a concrete input: one unmanaged key, an assignment
setting both managed fields, then a clearing merge. -/
theorem c5_merge_roundtrip_strips_managed_keys_witness :
    parsedObj (mergeManagedOriginRequest
        (mergeManagedOriginRequest (some (RawMsg.obj [("connectTimeout", JVal.other 7)]))
          { key := ⟨"a.example.com", ""⟩, service := "http://a",
            originServerName := some "origin.internal", noTLSVerify := some true })
        { key := ⟨"a.example.com", ""⟩, service := "http://a" }) =
      omapDelete (omapDelete (canon [("connectTimeout", JVal.other 7)])
        "originServerName") "noTLSVerify" :=
  c5_merge_roundtrip_strips_managed_keys [("connectTimeout", JVal.other 7)]
    { key := ⟨"a.example.com", ""⟩, service := "http://a",
      originServerName := some "origin.internal", noTLSVerify := some true }
    { key := ⟨"a.example.com", ""⟩, service := "http://a" } rfl rfl

/-- C10: mergeManagedOriginRequest returns the existing bytes verbatim
(the same bytes value, no re-marshaling) whenever neither managed field
needs to be added, changed or removed (the two patch flags are false);
and it returns nil rather than an empty JSON object whenever a change
leaves the merged object without keys, as well as when no bytes exist and
the route specifies neither managed field. -/
theorem c10_merge_verbatim_and_nil (existing : Option RawMsg) (route : RouteSpec) :
    ((patchOriginServerName (parsedObj existing) route.originServerName).2 = false →
      (patchNoTLSVerify
        (patchOriginServerName (parsedObj existing) route.originServerName).1
        route.noTLSVerify).2 = false →
      mergeManagedOriginRequest existing route = existing) ∧
    ((patchNoTLSVerify
        (patchOriginServerName (parsedObj existing) route.originServerName).1
        route.noTLSVerify).1 = [] →
      ((patchOriginServerName (parsedObj existing) route.originServerName).2 = true ∨
        (patchNoTLSVerify
          (patchOriginServerName (parsedObj existing) route.originServerName).1
          route.noTLSVerify).2 = true) →
      mergeManagedOriginRequest existing route = none) := by
  by_cases hguard :
      (existing.isNone && route.originServerName.isNone && route.noTLSVerify.isNone) = true
  · have he : existing = none := by
      cases existing <;> simp_all
    constructor
    · intro _ _
      rw [mergeManagedOriginRequest.eq_def, if_pos hguard, he]
    · intro _ _
      rw [mergeManagedOriginRequest.eq_def, if_pos hguard]
  · constructor
    · intro h1 h2
      rw [mergeManagedOriginRequest.eq_def, if_neg hguard]
      simp only [h1, h2, Bool.or_self, Bool.not_false, if_pos rfl]
      cases existing with
      | none => rfl
      | some raw => rfl
    · intro hempty hch
      have hch' :
          ((patchOriginServerName (parsedObj existing) route.originServerName).2 ||
            (patchNoTLSVerify
              (patchOriginServerName (parsedObj existing) route.originServerName).1
              route.noTLSVerify).2) = true := by
        rcases hch with h | h <;> simp [h]
      rw [mergeManagedOriginRequest.eq_def, if_neg hguard]
      simp only [hch', Bool.not_true, Bool.false_eq_true, if_false]
      rw [if_pos (by simpa [List.isEmpty_iff] using hempty)]

/-- Witness for C10: an existing object spelled in non-sorted key order
with both managed fields already matching is returned verbatim, and a
lone stale managed key cleared by a route without managed fields yields
nil. -/
theorem c10_merge_verbatim_and_nil_witness :
    mergeManagedOriginRequest
        (some (RawMsg.obj [("z", JVal.other 1), ("a", JVal.other 2)]))
        { key := ⟨"a.example.com", ""⟩, service := "http://a" } =
      some (RawMsg.obj [("z", JVal.other 1), ("a", JVal.other 2)]) ∧
    mergeManagedOriginRequest
        (some (RawMsg.obj [("noTLSVerify", JVal.boolean true)]))
        { key := ⟨"a.example.com", ""⟩, service := "http://a" } = none :=
  ⟨(c10_merge_verbatim_and_nil
      (some (RawMsg.obj [("z", JVal.other 1), ("a", JVal.other 2)]))
      { key := ⟨"a.example.com", ""⟩, service := "http://a" }).1
    (by decide) (by decide),
   (c10_merge_verbatim_and_nil
      (some (RawMsg.obj [("noTLSVerify", JVal.boolean true)]))
      { key := ⟨"a.example.com", ""⟩, service := "http://a" }).2
    (by decide) (by decide)⟩

/-! ### Claim C4: shape of the emitted ingress rule list -/

theorem buildDesiredIngress_fst (desired : List RouteSpec) (existing : List IngressRule) :
    (buildDesiredIngress desired existing).1 =
      sortBy ruleLeKey (desired.map (fun route =>
        { hostname := route.key.hostname, path := route.key.path,
          service := route.service,
          originRequest := mergeManagedOriginRequest
            (match lookupRouteKey (buildExistingByKey existing) route.key with
              | some existingRule => existingRule.originRequest
              | none => none) route : IngressRule })) ++ [catchAllRule] := rfl

theorem routeKeyPair_injective :
    Function.Injective (fun k : RouteKey => (k.hostname, k.path)) := by
  intro a b h
  cases a
  cases b
  simpa using h

/-- C4: for every desired route set with unique (hostname, path) keys
(and the nonempty hostnames the label parser guarantees) and every live
rule list, the emitted rule list ends with the catch-all as its last
element, contains exactly one catch-all, has pairwise-distinct
(hostname, path) keys, and its non-catch-all part is sorted by the
(hostname, path) rule key, so the output is a deterministic function of
the input. -/
theorem c4_emitted_ingress_shape (desired : List RouteSpec) (existing : List IngressRule)
    (hkeys : (desired.map RouteSpec.key).Nodup)
    (hhost : ∀ r ∈ desired, r.key.hostname ≠ "") :
    (buildDesiredIngress desired existing).1.getLast? = some catchAllRule ∧
    ((buildDesiredIngress desired existing).1.filter isCatchAllRule).length = 1 ∧
    ((buildDesiredIngress desired existing).1.map
      (fun r => (r.hostname, r.path))).Nodup ∧
    (buildDesiredIngress desired existing).1.dropLast.Pairwise
      (fun a b => ruleLeKey a b = true) := by
  rw [buildDesiredIngress_fst]
  set f : RouteSpec → IngressRule := fun route =>
    { hostname := route.key.hostname, path := route.key.path,
      service := route.service,
      originRequest := mergeManagedOriginRequest
        (match lookupRouteKey (buildExistingByKey existing) route.key with
          | some existingRule => existingRule.originRequest
          | none => none) route } with hf
  have hperm := sortBy_perm ruleLeKey (desired.map f)
  have hmemhost : ∀ r ∈ sortBy ruleLeKey (desired.map f), r.hostname ≠ "" := by
    intro r hr
    have hr' := hperm.mem_iff.mp hr
    rcases List.mem_map.mp hr' with ⟨route, hroute, rfl⟩
    simpa [hf] using hhost route hroute
  refine ⟨?_, ?_, ?_, ?_⟩
  · rw [List.getLast?_concat]
  · rw [List.filter_append]
    have h1 : (sortBy ruleLeKey (desired.map f)).filter isCatchAllRule = [] := by
      apply List.filter_eq_nil_iff.mpr
      intro r hr
      simp only [isCatchAllRule, Bool.and_eq_true, beq_iff_eq, not_and]
      intro hh
      exact absurd hh (hmemhost r hr)
    rw [h1]
    rfl
  · rw [List.map_append]
    have hpairs : (sortBy ruleLeKey (desired.map f)).map (fun r => (r.hostname, r.path)) =
        List.map (fun r => (r.hostname, r.path)) (sortBy ruleLeKey (desired.map f)) := rfl
    apply (List.nodup_append).mpr
    refine ⟨?_, by simp, ?_⟩
    · have hpermMap := hperm.map (fun r : IngressRule => (r.hostname, r.path))
      apply hpermMap.nodup_iff.mpr
      have : (desired.map f).map (fun r => (r.hostname, r.path)) =
          (desired.map RouteSpec.key).map (fun k => (k.hostname, k.path)) := by
        simp only [List.map_map]
        rfl
      rw [this]
      exact hkeys.map routeKeyPair_injective
    · intro p hp hq
      rcases List.mem_map.mp hp with ⟨r, hr, rfl⟩
      have : (r.hostname, r.path) = (catchAllRule.hostname, catchAllRule.path) := by
        simpa using hq
      have hh : r.hostname = "" := by
        have := congrArg Prod.fst this
        simpa [catchAllRule] using this
      exact absurd hh (hmemhost r hr)
  · rw [List.dropLast_concat]
    exact sortBy_sorted ruleLeKey (fun a b => ruleLeKey_total a b)
      (fun a b c => ruleLeKey_trans a b c) (desired.map f)

/-- Witness for C4 at concrete inputs (two desired routes, a live list
with a foreign rule, a duplicate and a catch-all). -/
theorem c4_emitted_ingress_shape_witness :
    ((buildDesiredIngress
        [{ key := ⟨"b.example.com", ""⟩, service := "http://b" },
         { key := ⟨"a.example.com", "/x"⟩, service := "http://a" }]
        [{ hostname := "c.example.com", service := "http://c" },
         { hostname := "c.example.com", service := "http://c2" },
         { service := FallbackService }]).1.getLast? = some catchAllRule) ∧
    (((buildDesiredIngress
        [{ key := ⟨"b.example.com", ""⟩, service := "http://b" },
         { key := ⟨"a.example.com", "/x"⟩, service := "http://a" }]
        [{ hostname := "c.example.com", service := "http://c" },
         { hostname := "c.example.com", service := "http://c2" },
         { service := FallbackService }]).1.filter isCatchAllRule).length = 1) :=
  ⟨(c4_emitted_ingress_shape
      [{ key := ⟨"b.example.com", ""⟩, service := "http://b" },
       { key := ⟨"a.example.com", "/x"⟩, service := "http://a" }]
      [{ hostname := "c.example.com", service := "http://c" },
       { hostname := "c.example.com", service := "http://c2" },
       { service := FallbackService }]
      (by decide) (by decide)).1,
   (c4_emitted_ingress_shape
      [{ key := ⟨"b.example.com", ""⟩, service := "http://b" },
       { key := ⟨"a.example.com", "/x"⟩, service := "http://a" }]
      [{ hostname := "c.example.com", service := "http://c" },
       { hostname := "c.example.com", service := "http://c2" },
       { service := FallbackService }]
      (by decide) (by decide)).2.1⟩

/-! ### Helper facts about the access engine -/

theorem mem_deleteOrphanedApps {manage dryRun : Bool} {managedTag : String}
    {existing : List AccessAppRecord} {desired : List String}
    {app : AccessAppRecord}
    (h : app ∈ deleteOrphanedApps manage dryRun managedTag existing desired) :
    app ∈ existing ∧ desired.contains app.id = false ∧
      hasManagedTag app.tags managedTag = true ∧ dryRun = false := by
  rw [deleteOrphanedApps] at h
  cases manage with
  | false => simp at h
  | true =>
    simp only [Bool.not_true, Bool.false_eq_true, if_false] at h
    rcases List.mem_filter.mp h with ⟨hmem, hcond⟩
    simp only [Bool.and_eq_true, Bool.not_eq_true'] at hcond
    exact ⟨hmem, hcond.1.1, hcond.1.2, hcond.2⟩

theorem ensureAccessTag_calls {st : AccessServer} {name : String} :
    ∀ c ∈ (ensureAccessTag st name).2, ∃ n, c = AccessCall.createTag n := by
  intro c hc
  rw [ensureAccessTag] at hc
  by_cases h1 : goTrimSpace name == ""
  · rw [if_pos h1] at hc
    simp at hc
  · rw [if_neg h1] at hc
    by_cases h2 : st.tags.contains name
    · rw [if_pos h2] at hc
      simp at hc
    · rw [if_neg h2] at hc
      simp only [List.mem_singleton] at hc
      exact ⟨name, hc⟩

theorem updatePolicyIfNeeded_calls {cfg : AccessCfg} {st : AccessServer}
    {spec : AccessPolicySpec} {record : AccessPolicyRecord} :
    ∀ c ∈ (updatePolicyIfNeeded cfg st spec record).2,
      ∃ id i, c = AccessCall.updatePolicy id i := by
  intro c hc
  rw [updatePolicyIfNeeded] at hc
  repeat' split at hc
  all_goals simp_all

theorem ensureAppTags_calls {st : AccessServer} {tags : List String} :
    ∀ c ∈ (ensureAppTags st tags).2.1, ∃ n, c = AccessCall.createTag n := by
  rw [ensureAppTags]
  suffices h : ∀ (acc : AccessServer × List AccessCall × List String),
      (∀ c ∈ acc.2.1, ∃ n, c = AccessCall.createTag n) →
      ∀ c ∈ (tags.foldl (fun acc tag =>
        let trimmed := goTrimSpace tag
        if trimmed == "" then acc
        else if acc.2.2.contains trimmed then acc
        else
          let ensured := ensureAccessTag acc.1 trimmed
          (ensured.1, acc.2.1 ++ ensured.2, acc.2.2 ++ [trimmed])) acc).2.1,
        ∃ n, c = AccessCall.createTag n by
    exact h (st, [], []) (by simp)
  induction tags with
  | nil => intro acc hacc; simpa using hacc
  | cons tag rest ih =>
    intro acc hacc
    simp only [List.foldl_cons]
    apply ih
    dsimp only
    by_cases h1 : (goTrimSpace tag == "") = true
    · rw [if_pos h1]
      exact hacc
    · rw [if_neg h1]
      by_cases h2 : (acc.2.2.contains (goTrimSpace tag)) = true
      · rw [if_pos h2]
        exact hacc
      · rw [if_neg h2]
        intro c hc
        rcases List.mem_append.mp hc with h | h
        · exact hacc c h
        · exact ensureAccessTag_calls c h

theorem ensurePoliciesGo_calls {cfg : AccessCfg} :
    ∀ (policies : List AccessPolicySpec) (st : AccessServer)
      (policyByID : List (String × AccessPolicyRecord))
      (policyByName : List (String × List AccessPolicyRecord))
      (refsAcc : List AccessPolicyRef) (callsAcc : List AccessCall),
      ∀ c ∈ (ensurePoliciesGo cfg st policyByID policyByName refsAcc callsAcc policies).calls,
        c ∈ callsAcc ∨ (∃ i, c = AccessCall.createPolicy i) ∨
          (∃ id i, c = AccessCall.updatePolicy id i) := by
  intro policies
  induction policies with
  | nil =>
    intro st policyByID policyByName refsAcc callsAcc c hc
    exact Or.inl hc
  | cons policy rest ih =>
    intro st policyByID policyByName refsAcc callsAcc c hc
    rw [ensurePoliciesGo] at hc
    by_cases hid : policy.id != ""
    · rw [if_pos hid] at hc
      cases hget : assocGet policyByID policy.id with
      | none =>
        rw [hget] at hc
        by_cases hm : !policy.managed
        · rw [if_pos hm] at hc
          exact ih _ _ _ _ _ c hc
        · rw [if_neg hm] at hc
          exact Or.inl hc
      | some record =>
        rw [hget] at hc
        rcases ih _ _ _ _ _ c hc with h | h | h
        · rcases List.mem_append.mp h with h' | h'
          · exact Or.inl h'
          · exact Or.inr (Or.inr (updatePolicyIfNeeded_calls c h'))
        · exact Or.inr (Or.inl h)
        · exact Or.inr (Or.inr h)
    · rw [if_neg hid] at hc
      by_cases hm : !policy.managed
      · rw [if_pos hm] at hc
        rcases hres : resolvePolicyByName policy policyByName with ⟨rec?, ok⟩
        rw [hres] at hc
        cases ok with
        | false =>
          cases rec? with
          | none => exact Or.inl hc
          | some record => exact Or.inl hc
        | true =>
          cases rec? with
          | none => exact Or.inl hc
          | some record =>
            rcases ih _ _ _ _ _ c hc with h | h | h
            · rcases List.mem_append.mp h with h' | h'
              · exact Or.inl h'
              · exact Or.inr (Or.inr (updatePolicyIfNeeded_calls c h'))
            · exact Or.inr (Or.inl h)
            · exact Or.inr (Or.inr h)
      · rw [if_neg hm] at hc
        rcases hres : resolvePolicyByName policy policyByName with ⟨rec?, ok⟩
        rw [hres] at hc
        cases ok with
        | false =>
          cases rec? with
          | none => exact Or.inl hc
          | some record => exact Or.inl hc
        | true =>
          cases rec? with
          | none =>
            by_cases hmg : !cfg.manage
            · rw [if_pos hmg] at hc
              exact ih _ _ _ _ _ c hc
            · rw [if_neg hmg] at hc
              by_cases hdr : cfg.dryRun
              · rw [if_pos hdr] at hc
                exact ih _ _ _ _ _ c hc
              · rw [if_neg hdr] at hc
                rcases ih _ _ _ _ _ c hc with h | h | h
                · rcases List.mem_append.mp h with h' | h'
                  · exact Or.inl h'
                  · exact Or.inr (Or.inl ⟨buildPolicyInput policy, by simpa using h'⟩)
                · exact Or.inr (Or.inl h)
                · exact Or.inr (Or.inr h)
          | some record =>
            rcases ih _ _ _ _ _ c hc with h | h | h
            · rcases List.mem_append.mp h with h' | h'
              · exact Or.inl h'
              · exact Or.inr (Or.inr (updatePolicyIfNeeded_calls c h'))
            · exact Or.inr (Or.inl h)
            · exact Or.inr (Or.inr h)

/-! ### Branch equations for ensurePolicies -/

theorem ensurePoliciesGo_nil (cfg : AccessCfg) (st : AccessServer)
    (policyByID : List (String × AccessPolicyRecord))
    (policyByName : List (String × List AccessPolicyRecord))
    (refsAcc : List AccessPolicyRef) (callsAcc : List AccessCall) :
    ensurePoliciesGo cfg st policyByID policyByName refsAcc callsAcc [] =
      { server := st, policyByID := policyByID, policyByName := policyByName,
        calls := callsAcc, refs := refsAcc, ok := !refsAcc.isEmpty } := rfl

theorem ensurePoliciesGo_id_missing_ref (cfg : AccessCfg) (st : AccessServer)
    (policyByID : List (String × AccessPolicyRecord))
    (policyByName : List (String × List AccessPolicyRecord))
    (refsAcc : List AccessPolicyRef) (callsAcc : List AccessCall)
    (policy : AccessPolicySpec) (rest : List AccessPolicySpec)
    (hid : (policy.id != "") = true) (hget : assocGet policyByID policy.id = none)
    (hm : policy.managed = false) :
    ensurePoliciesGo cfg st policyByID policyByName refsAcc callsAcc (policy :: rest) =
      ensurePoliciesGo cfg st policyByID policyByName
        (refsAcc ++ [{ id := policy.id, precedence := refsAcc.length + 1 }])
        callsAcc rest := by
  rw [ensurePoliciesGo, if_pos hid, hget]
  simp [hm]

theorem ensurePoliciesGo_id_missing_managed (cfg : AccessCfg) (st : AccessServer)
    (policyByID : List (String × AccessPolicyRecord))
    (policyByName : List (String × List AccessPolicyRecord))
    (refsAcc : List AccessPolicyRef) (callsAcc : List AccessCall)
    (policy : AccessPolicySpec) (rest : List AccessPolicySpec)
    (hid : (policy.id != "") = true) (hget : assocGet policyByID policy.id = none)
    (hm : policy.managed = true) :
    ensurePoliciesGo cfg st policyByID policyByName refsAcc callsAcc (policy :: rest) =
      { server := st, policyByID := policyByID, policyByName := policyByName,
        calls := callsAcc, refs := [], ok := false } := by
  rw [ensurePoliciesGo, if_pos hid, hget]
  simp [hm]

theorem ensurePoliciesGo_id_found (cfg : AccessCfg) (st : AccessServer)
    (policyByID : List (String × AccessPolicyRecord))
    (policyByName : List (String × List AccessPolicyRecord))
    (refsAcc : List AccessPolicyRef) (callsAcc : List AccessCall)
    (policy : AccessPolicySpec) (rest : List AccessPolicySpec)
    (record : AccessPolicyRecord)
    (hid : (policy.id != "") = true)
    (hget : assocGet policyByID policy.id = some record) :
    ensurePoliciesGo cfg st policyByID policyByName refsAcc callsAcc (policy :: rest) =
      ensurePoliciesGo cfg (updatePolicyIfNeeded cfg st policy record).1
        policyByID policyByName
        (refsAcc ++ [{ id := record.id, precedence := refsAcc.length + 1 }])
        (callsAcc ++ (updatePolicyIfNeeded cfg st policy record).2) rest := by
  rw [ensurePoliciesGo, if_pos hid, hget]

theorem ensurePoliciesGo_name_ambiguous (cfg : AccessCfg) (st : AccessServer)
    (policyByID : List (String × AccessPolicyRecord))
    (policyByName : List (String × List AccessPolicyRecord))
    (refsAcc : List AccessPolicyRef) (callsAcc : List AccessCall)
    (policy : AccessPolicySpec) (rest : List AccessPolicySpec)
    (rec? : Option AccessPolicyRecord)
    (hid : (policy.id != "") = false)
    (hres : resolvePolicyByName policy policyByName = (rec?, false)) :
    ensurePoliciesGo cfg st policyByID policyByName refsAcc callsAcc (policy :: rest) =
      { server := st, policyByID := policyByID, policyByName := policyByName,
        calls := callsAcc, refs := [], ok := false } := by
  rw [ensurePoliciesGo, if_neg (by simp [hid])]
  by_cases hm : (!policy.managed) = true
  · rw [if_pos hm, hres]
    cases rec? <;> rfl
  · rw [if_neg hm, hres]
    cases rec? <;> rfl

theorem ensurePoliciesGo_name_notfound_ref (cfg : AccessCfg) (st : AccessServer)
    (policyByID : List (String × AccessPolicyRecord))
    (policyByName : List (String × List AccessPolicyRecord))
    (refsAcc : List AccessPolicyRef) (callsAcc : List AccessCall)
    (policy : AccessPolicySpec) (rest : List AccessPolicySpec)
    (hid : (policy.id != "") = false) (hm : policy.managed = false)
    (hres : resolvePolicyByName policy policyByName = (none, true)) :
    ensurePoliciesGo cfg st policyByID policyByName refsAcc callsAcc (policy :: rest) =
      { server := st, policyByID := policyByID, policyByName := policyByName,
        calls := callsAcc, refs := [], ok := false } := by
  rw [ensurePoliciesGo, if_neg (by simp [hid]), if_pos (by simp [hm]), hres]

theorem ensurePoliciesGo_name_found_ref (cfg : AccessCfg) (st : AccessServer)
    (policyByID : List (String × AccessPolicyRecord))
    (policyByName : List (String × List AccessPolicyRecord))
    (refsAcc : List AccessPolicyRef) (callsAcc : List AccessCall)
    (policy : AccessPolicySpec) (rest : List AccessPolicySpec)
    (record : AccessPolicyRecord)
    (hid : (policy.id != "") = false) (hm : policy.managed = false)
    (hres : resolvePolicyByName policy policyByName = (some record, true)) :
    ensurePoliciesGo cfg st policyByID policyByName refsAcc callsAcc (policy :: rest) =
      ensurePoliciesGo cfg (updatePolicyIfNeeded cfg st policy record).1
        policyByID policyByName
        (refsAcc ++ [{ id := record.id, precedence := refsAcc.length + 1 }])
        (callsAcc ++ (updatePolicyIfNeeded cfg st policy record).2) rest := by
  rw [ensurePoliciesGo, if_neg (by simp [hid]), if_pos (by simp [hm]), hres]

theorem ensurePoliciesGo_name_notfound_skip (cfg : AccessCfg) (st : AccessServer)
    (policyByID : List (String × AccessPolicyRecord))
    (policyByName : List (String × List AccessPolicyRecord))
    (refsAcc : List AccessPolicyRef) (callsAcc : List AccessCall)
    (policy : AccessPolicySpec) (rest : List AccessPolicySpec)
    (hid : (policy.id != "") = false) (hm : policy.managed = true)
    (hres : resolvePolicyByName policy policyByName = (none, true))
    (hskip : cfg.manage = false ∨ cfg.dryRun = true) :
    ensurePoliciesGo cfg st policyByID policyByName refsAcc callsAcc (policy :: rest) =
      ensurePoliciesGo cfg st policyByID policyByName refsAcc callsAcc rest := by
  rw [ensurePoliciesGo, if_neg (by simp [hid]), if_neg (by simp [hm]), hres]
  rcases hskip with h | h
  · rw [if_pos (by simp [h])]
  · by_cases hmg : (!cfg.manage) = true
    · rw [if_pos hmg]
    · rw [if_neg hmg, if_pos h]

theorem ensurePoliciesGo_name_create (cfg : AccessCfg) (st : AccessServer)
    (policyByID : List (String × AccessPolicyRecord))
    (policyByName : List (String × List AccessPolicyRecord))
    (refsAcc : List AccessPolicyRef) (callsAcc : List AccessCall)
    (policy : AccessPolicySpec) (rest : List AccessPolicySpec)
    (hid : (policy.id != "") = false) (hm : policy.managed = true)
    (hres : resolvePolicyByName policy policyByName = (none, true))
    (hmg : cfg.manage = true) (hdr : cfg.dryRun = false) :
    ensurePoliciesGo cfg st policyByID policyByName refsAcc callsAcc (policy :: rest) =
      ensurePoliciesGo cfg (applyCreatePolicy st (buildPolicyInput policy)).1
        (assocSet policyByID (applyCreatePolicy st (buildPolicyInput policy)).2.id
          (applyCreatePolicy st (buildPolicyInput policy)).2)
        (assocSet policyByName
          (goToLower (applyCreatePolicy st (buildPolicyInput policy)).2.name)
          ((assocGet policyByName
            (goToLower (applyCreatePolicy st (buildPolicyInput policy)).2.name)).getD []
            ++ [(applyCreatePolicy st (buildPolicyInput policy)).2]))
        (refsAcc ++ [⟨(applyCreatePolicy st (buildPolicyInput policy)).2.id,
          refsAcc.length + 1⟩])
        (callsAcc ++ [.createPolicy (buildPolicyInput policy)]) rest := by
  rw [ensurePoliciesGo, if_neg (by simp [hid]), if_neg (by simp [hm]), hres]
  rw [if_neg (by simp [hmg]), if_neg (by simp [hdr])]

theorem ensurePoliciesGo_name_found_managed (cfg : AccessCfg) (st : AccessServer)
    (policyByID : List (String × AccessPolicyRecord))
    (policyByName : List (String × List AccessPolicyRecord))
    (refsAcc : List AccessPolicyRef) (callsAcc : List AccessCall)
    (policy : AccessPolicySpec) (rest : List AccessPolicySpec)
    (record : AccessPolicyRecord)
    (hid : (policy.id != "") = false) (hm : policy.managed = true)
    (hres : resolvePolicyByName policy policyByName = (some record, true)) :
    ensurePoliciesGo cfg st policyByID policyByName refsAcc callsAcc (policy :: rest) =
      ensurePoliciesGo cfg (updatePolicyIfNeeded cfg st policy record).1
        policyByID policyByName
        (refsAcc ++ [{ id := record.id, precedence := refsAcc.length + 1 }])
        (callsAcc ++ (updatePolicyIfNeeded cfg st policy record).2) rest := by
  rw [ensurePoliciesGo, if_neg (by simp [hid]), if_neg (by simp [hm]), hres]

theorem ensurePoliciesGo_ok_refs {cfg : AccessCfg} :
    ∀ (policies : List AccessPolicySpec) (st : AccessServer)
      (policyByID : List (String × AccessPolicyRecord))
      (policyByName : List (String × List AccessPolicyRecord))
      (refsAcc : List AccessPolicyRef) (callsAcc : List AccessCall),
      (ensurePoliciesGo cfg st policyByID policyByName refsAcc callsAcc policies).ok = true →
      (ensurePoliciesGo cfg st policyByID policyByName refsAcc callsAcc policies).refs ≠ [] := by
  intro policies
  induction policies with
  | nil =>
    intro st policyByID policyByName refsAcc callsAcc hok
    rw [ensurePoliciesGo_nil] at hok ⊢
    simpa [List.isEmpty_iff] using hok
  | cons policy rest ih =>
    intro st policyByID policyByName refsAcc callsAcc hok
    by_cases hid : (policy.id != "") = true
    · rcases hget : assocGet policyByID policy.id with _ | record
      · by_cases hm : policy.managed = true
        · rw [ensurePoliciesGo_id_missing_managed cfg st policyByID policyByName
            refsAcc callsAcc policy rest hid hget hm] at hok
          exact absurd hok (by simp)
        · rw [ensurePoliciesGo_id_missing_ref cfg st policyByID policyByName
            refsAcc callsAcc policy rest hid hget (by simpa using hm)] at hok ⊢
          exact ih _ _ _ _ _ hok
      · rw [ensurePoliciesGo_id_found cfg st policyByID policyByName
          refsAcc callsAcc policy rest record hid hget] at hok ⊢
        exact ih _ _ _ _ _ hok
    · have hid' : (policy.id != "") = false := by simpa using hid
      rcases hres : resolvePolicyByName policy policyByName with ⟨rec?, ok⟩
      cases ok with
      | false =>
        rw [ensurePoliciesGo_name_ambiguous cfg st policyByID policyByName
          refsAcc callsAcc policy rest rec? hid' hres] at hok
        exact absurd hok (by simp)
      | true =>
        cases rec? with
        | none =>
          by_cases hm : policy.managed = true
          · by_cases hmg : cfg.manage = true
            · by_cases hdr : cfg.dryRun = true
              · rw [ensurePoliciesGo_name_notfound_skip cfg st policyByID policyByName
                  refsAcc callsAcc policy rest hid' hm hres (Or.inr hdr)] at hok ⊢
                exact ih _ _ _ _ _ hok
              · rw [ensurePoliciesGo_name_create cfg st policyByID policyByName
                  refsAcc callsAcc policy rest hid' hm hres hmg
                  (by simpa using hdr)] at hok ⊢
                exact ih _ _ _ _ _ hok
            · rw [ensurePoliciesGo_name_notfound_skip cfg st policyByID policyByName
                refsAcc callsAcc policy rest hid' hm hres
                (Or.inl (by simpa using hmg))] at hok ⊢
              exact ih _ _ _ _ _ hok
          · rw [ensurePoliciesGo_name_notfound_ref cfg st policyByID policyByName
              refsAcc callsAcc policy rest hid' (by simpa using hm) hres] at hok
            exact absurd hok (by simp)
        | some record =>
          by_cases hm : policy.managed = true
          · rw [ensurePoliciesGo_name_found_managed cfg st policyByID policyByName
              refsAcc callsAcc policy rest record hid' hm hres] at hok ⊢
            exact ih _ _ _ _ _ hok
          · rw [ensurePoliciesGo_name_found_ref cfg st policyByID policyByName
              refsAcc callsAcc policy rest record hid' (by simpa using hm) hres] at hok ⊢
            exact ih _ _ _ _ _ hok

theorem processSpecTags_calls {cfg : AccessCfg} {server : AccessServer} :
    ∀ c ∈ (processSpecTags cfg server).2.1, ∃ n, c = AccessCall.createTag n := by
  intro c hc
  rw [processSpecTags] at hc
  by_cases hm : cfg.manage = true
  · rw [if_pos hm] at hc
    exact ensureAccessTag_calls c hc
  · rw [if_neg hm] at hc
    simp at hc

theorem processSpecAppTags_calls {cfg : AccessCfg} {server : AccessServer}
    {app : AccessAppSpec} :
    ∀ c ∈ (processSpecAppTags cfg server app).2.1, ∃ n, c = AccessCall.createTag n := by
  intro c hc
  rw [processSpecAppTags] at hc
  by_cases hm : (cfg.manage && app.tagsSet && !app.tags.isEmpty) = true
  · rw [if_pos hm] at hc
    exact ensureAppTags_calls c hc
  · rw [if_neg hm] at hc
    simp at hc

theorem processSpecResolve_spec (cfg : AccessCfg) (existingApps : List AccessAppRecord)
    (st2 : APassSt) (appSpec : AccessAppSpec) (policyRefs : List AccessPolicyRef)
    (tagging : Bool) (callsSoFar : List AccessCall) :
    (processSpecResolve cfg existingApps st2 appSpec policyRefs tagging
      callsSoFar).2.polAborted = false ∧
    ∀ c ∈ (processSpecResolve cfg existingApps st2 appSpec policyRefs tagging
        callsSoFar).2.calls,
      c ∈ callsSoFar ∨
      (∃ i, (c = AccessCall.createApp i ∨ ∃ id, c = AccessCall.updateApp id i) ∧
        i.policies = policyRefs) := by
  rw [processSpecResolve]
  cases hres : resolveAccessApp appSpec st2.appByID existingApps with
  | none =>
    by_cases h1 : (!cfg.manage) = true
    · rw [if_pos h1]
      exact ⟨rfl, fun c hc => Or.inl hc⟩
    · rw [if_neg h1]
      by_cases h2 : cfg.dryRun = true
      · rw [if_pos h2]
        exact ⟨rfl, fun c hc => Or.inl hc⟩
      · rw [if_neg h2]
        refine ⟨rfl, fun c hc => ?_⟩
        rcases List.mem_append.mp hc with h | h
        · exact Or.inl h
        · rcases List.mem_singleton.mp h with rfl
          exact Or.inr ⟨_, Or.inl rfl, rfl⟩
  | some appRecord =>
    dsimp only
    by_cases h1 : (!appNeedsUpdate appRecord
        (buildAppInput cfg.managedTag appSpec policyRefs appRecord.tags tagging)) = true
    · rw [if_pos h1]
      exact ⟨rfl, fun c hc => Or.inl hc⟩
    · rw [if_neg h1]
      by_cases h2 : (!cfg.manage) = true
      · rw [if_pos h2]
        exact ⟨rfl, fun c hc => Or.inl hc⟩
      · rw [if_neg h2]
        by_cases h3 : cfg.dryRun = true
        · rw [if_pos h3]
          exact ⟨rfl, fun c hc => Or.inl hc⟩
        · rw [if_neg h3]
          refine ⟨rfl, fun c hc => ?_⟩
          rcases List.mem_append.mp hc with h | h
          · exact Or.inl h
          · rcases List.mem_singleton.mp h with rfl
            exact Or.inr ⟨_, Or.inr ⟨_, rfl⟩, rfl⟩

theorem processSpec_calls_cases (cfg : AccessCfg) (existingApps : List AccessAppRecord)
    (st : APassSt) (app : AccessAppSpec) :
    ∀ c ∈ (processSpec cfg existingApps st app).2.calls,
      (∃ n, c = AccessCall.createTag n) ∨
      (∃ i, c = AccessCall.createPolicy i) ∨
      (∃ id i, c = AccessCall.updatePolicy id i) ∨
      ((processSpec cfg existingApps st app).2.polAborted = false ∧
        ((∃ i, c = AccessCall.createApp i ∧ i.policies ≠ []) ∨
          (∃ id i, c = AccessCall.updateApp id i ∧ i.policies ≠ []))) := by
  intro c hc
  simp only [processSpec] at hc ⊢
  by_cases hok : (ensurePoliciesGo cfg (processSpecTags cfg st.server).1
      st.policyByID st.policyByName [] [] app.policies).ok = true
  · rw [if_neg (by simp [hok])] at hc ⊢
    have hspec := processSpecResolve_spec cfg existingApps
      { st with
        server := (processSpecAppTags cfg
          (ensurePoliciesGo cfg (processSpecTags cfg st.server).1
            st.policyByID st.policyByName [] [] app.policies).server app).1
        policyByID := (ensurePoliciesGo cfg (processSpecTags cfg st.server).1
          st.policyByID st.policyByName [] [] app.policies).policyByID
        policyByName := (ensurePoliciesGo cfg (processSpecTags cfg st.server).1
          st.policyByID st.policyByName [] [] app.policies).policyByName }
      (processSpecAppTags cfg
        (ensurePoliciesGo cfg (processSpecTags cfg st.server).1
          st.policyByID st.policyByName [] [] app.policies).server app).2.2
      (ensurePoliciesGo cfg (processSpecTags cfg st.server).1
        st.policyByID st.policyByName [] [] app.policies).refs
      (processSpecTags cfg st.server).2.2
      ((processSpecTags cfg st.server).2.1 ++
        (ensurePoliciesGo cfg (processSpecTags cfg st.server).1
          st.policyByID st.policyByName [] [] app.policies).calls ++
        (processSpecAppTags cfg
          (ensurePoliciesGo cfg (processSpecTags cfg st.server).1
            st.policyByID st.policyByName [] [] app.policies).server app).2.1)
    rcases hspec.2 c hc with h | ⟨i, hkind, hpol⟩
    · rcases List.mem_append.mp h with h' | h'
      · rcases List.mem_append.mp h' with h'' | h''
        · exact Or.inl (processSpecTags_calls c h'')
        · rcases ensurePoliciesGo_calls app.policies _ _ _ _ _ c h'' with h3 | h3 | h3
          · simp at h3
          · exact Or.inr (Or.inl h3)
          · exact Or.inr (Or.inr (Or.inl h3))
      · exact Or.inl (processSpecAppTags_calls c h')
    · have hrefs := ensurePoliciesGo_ok_refs app.policies
        (processSpecTags cfg st.server).1 st.policyByID st.policyByName [] [] hok
      refine Or.inr (Or.inr (Or.inr ⟨hspec.1, ?_⟩))
      rcases hkind with h | ⟨id, h⟩
      · exact Or.inl ⟨i, h, hpol ▸ hrefs⟩
      · exact Or.inr ⟨id, i, h, hpol ▸ hrefs⟩
  · rw [if_pos (by simp [Bool.not_eq_true] at hok ⊢; exact hok)] at hc ⊢
    simp only [] at hc
    rcases List.mem_append.mp hc with h | h
    · exact Or.inl (processSpecTags_calls c h)
    · rcases ensurePoliciesGo_calls app.policies _ _ _ _ _ c h with h3 | h3 | h3
      · simp at h3
      · exact Or.inr (Or.inl h3)
      · exact Or.inr (Or.inr (Or.inl h3))

theorem foldl_processSpec_results (cfg : AccessCfg) (existingApps : List AccessAppRecord) :
    ∀ (specs : List AccessAppSpec) (acc : APassSt × List SpecResult),
      (∀ r ∈ acc.2, ∃ st app, r = (processSpec cfg existingApps st app).2) →
      ∀ r ∈ (specs.foldl (fun acc spec =>
          let next := processSpec cfg existingApps acc.1 spec
          (next.1, acc.2 ++ [next.2])) acc).2,
        ∃ st app, r = (processSpec cfg existingApps st app).2 := by
  intro specs
  induction specs with
  | nil => intro acc hacc; simpa using hacc
  | cons spec rest ih =>
    intro acc hacc
    simp only [List.foldl_cons]
    apply ih
    intro r hr
    rcases List.mem_append.mp hr with h | h
    · exact hacc r h
    · exact ⟨acc.1, spec, List.mem_singleton.mp h⟩

theorem reconcileAccessRun_results (cfg : AccessCfg) (server : AccessServer)
    (specs : List AccessAppSpec) :
    ∀ res ∈ (reconcileAccessRun cfg server specs).2.1,
      ∃ st app, res = (processSpec cfg server.apps st app).2 := by
  rw [reconcileAccessRun]
  by_cases hguard : (specs.isEmpty && !cfg.manage) = true
  · rw [if_pos hguard]
    simp
  · rw [if_neg hguard]
    intro res hres
    exact foldl_processSpec_results cfg server.apps specs _ (by simp) res hres

theorem reconcileAccessRun_orphans (cfg : AccessCfg) (server : AccessServer)
    (specs : List AccessAppSpec) :
    ∀ o ∈ (reconcileAccessRun cfg server specs).2.2,
      o ∈ server.apps ∧ hasManagedTag o.tags cfg.managedTag = true := by
  rw [reconcileAccessRun]
  by_cases hguard : (specs.isEmpty && !cfg.manage) = true
  · rw [if_pos hguard]
    simp
  · rw [if_neg hguard]
    intro o ho
    have := mem_deleteOrphanedApps ho
    exact ⟨this.1, this.2.2.1⟩

/-! ### Claim C1: orphan cleanup requires the marker tag -/

/-- C1: for every set of live access apps and every desired set, the
orphan-cleanup pass issues a DeleteAccessApp call only for apps whose tag
list contains the ownership marker tag — equivalently, a live app lacking
the marker is never deleted, regardless of its absence from the desired
set or of its name or domain. -/
theorem c1_orphan_cleanup_requires_marker_tag
    (manage dryRun : Bool) (managedTag : String)
    (existing : List AccessAppRecord) (desired : List String) (app : AccessAppRecord)
    (h : app ∈ deleteOrphanedApps manage dryRun managedTag existing desired) :
    hasManagedTag app.tags managedTag = true :=
  (mem_deleteOrphanedApps h).2.2.1

/-- Witness for C1: a marked live app absent from the desired set is in
the deletion list, so the theorem applies and yields its marker fact. -/
theorem c1_orphan_cleanup_requires_marker_tag_witness :
    hasManagedTag exLiveAppX.tags exMarkerTag = true :=
  c1_orphan_cleanup_requires_marker_tag true false exMarkerTag
    [exLiveAppX] [] exLiveAppX (by decide)

/-! ### Claim C2: aborted apps and the orphan pass -/

/-- C2 counterexample: a desired app whose policy resolution aborts
(reference-only policy name with zero live matches) has a live
counterpart carrying the ownership marker tag, and the pass deletes that
counterpart: the claim that it is not deleted "even if it carries the
ownership marker tag" is false on the code. -/
theorem c2_counterexample_marked_counterpart_deleted :
    ((reconcileAccessRun exAccessCfg exServerC2 [exSpecAbort]).2.1.map
      (·.polAborted)) = [true] ∧
    AccessCall.deleteApp exLiveAppX ∈ (reconcileAccess exAccessCfg exServerC2 [exSpecAbort]).2 := by
  constructor
  · rfl
  · decide

/-- C2 (amended): if a desired app aborts before completing resolution,
its processing issues no CreateAccessApp, UpdateAccessApp or
DeleteAccessApp call — its live counterpart is neither created over,
updated nor deleted on account of that spec — and the orphan pass deletes only
apps carrying the ownership marker tag, so an unmarked counterpart
remains untouched (a marked one may still be deleted as an orphan). -/
theorem c2_aborted_spec_app_untouched (cfg : AccessCfg) (server : AccessServer)
    (specs : List AccessAppSpec) :
    (∀ res ∈ (reconcileAccessRun cfg server specs).2.1, res.polAborted = true →
      ∀ c ∈ res.calls,
        (∀ i, c ≠ AccessCall.createApp i) ∧
        (∀ id i, c ≠ AccessCall.updateApp id i) ∧
        (∀ a, c ≠ AccessCall.deleteApp a)) ∧
    (∀ o ∈ (reconcileAccessRun cfg server specs).2.2,
      hasManagedTag o.tags cfg.managedTag = true) := by
  constructor
  · intro res hres hab c hc
    rcases reconcileAccessRun_results cfg server specs res hres with ⟨st, app, rfl⟩
    rcases processSpec_calls_cases cfg server.apps st app c hc with
      ⟨n, h'⟩ | ⟨i', h'⟩ | ⟨id', i', h'⟩ | ⟨hfalse, _⟩
    · subst h'
      exact ⟨fun i => by simp, fun id i => by simp, fun a => by simp⟩
    · subst h'
      exact ⟨fun i => by simp, fun id i => by simp, fun a => by simp⟩
    · subst h'
      exact ⟨fun i => by simp, fun id i => by simp, fun a => by simp⟩
    · rw [hab] at hfalse
      exact absurd hfalse (by simp)
  · intro o ho
    exact (reconcileAccessRun_orphans cfg server specs o ho).2

/-- Witness for C2 (amended) at the counterexample scenario: the aborted
spec's only call is the marker-tag ensure, and the orphan deletion of the
marked counterpart satisfies the marker guard. -/
theorem c2_aborted_spec_app_untouched_witness :
    ((∀ i, AccessCall.createTag exMarkerTag ≠ AccessCall.createApp i) ∧
      (∀ id i, AccessCall.createTag exMarkerTag ≠ AccessCall.updateApp id i) ∧
      (∀ a, AccessCall.createTag exMarkerTag ≠ AccessCall.deleteApp a)) ∧
    hasManagedTag exLiveAppX.tags exAccessCfg.managedTag = true :=
  ⟨(c2_aborted_spec_app_untouched exAccessCfg exServerC2 [exSpecAbort]).1
      { polAborted := true, calls := [AccessCall.createTag exMarkerTag] }
      (by decide) rfl (AccessCall.createTag exMarkerTag) (by decide),
   (c2_aborted_spec_app_untouched exAccessCfg exServerC2 [exSpecAbort]).2
      exLiveAppX (by decide)⟩

/-! ### Claim C9: no app write with empty policy references -/

/-- C9: ensurePolicies reports success only when at least one policy
reference was collected (so an empty Policies list, or one whose managed
creations were all skipped by the management flag or dry-run, makes the
app abort), and consequently every CreateAccessApp or UpdateAccessApp
call issued by a reconcile pass carries a non-empty policy-reference
list. -/
theorem c9_no_app_write_with_empty_policy_refs (cfg : AccessCfg) (server : AccessServer)
    (specs : List AccessAppSpec) :
    (∀ (st : AccessServer) (policyByID : List (String × AccessPolicyRecord))
        (policyByName : List (String × List AccessPolicyRecord))
        (policies : List AccessPolicySpec),
      (ensurePoliciesGo cfg st policyByID policyByName [] [] policies).ok = true →
      (ensurePoliciesGo cfg st policyByID policyByName [] [] policies).refs ≠ []) ∧
    (∀ c ∈ (reconcileAccess cfg server specs).2,
      (∀ i, c = AccessCall.createApp i → i.policies ≠ []) ∧
      (∀ id i, c = AccessCall.updateApp id i → i.policies ≠ [])) := by
  constructor
  · intro st policyByID policyByName policies hok
    exact ensurePoliciesGo_ok_refs policies st policyByID policyByName [] [] hok
  · intro c hc
    simp only [reconcileAccess, accessTrace] at hc
    rcases List.mem_append.mp hc with h | h
    · rcases List.mem_flatten.mp h with ⟨calls, hcalls, hcmem⟩
      rcases List.mem_map.mp hcalls with ⟨res, hres, rfl⟩
      rcases reconcileAccessRun_results cfg server specs res hres with ⟨st, app, rfl⟩
      have hcase := processSpec_calls_cases cfg server.apps st app c hcmem
      constructor
      · rintro i rfl
        rcases hcase with ⟨n, h'⟩ | ⟨i', h'⟩ | ⟨id', i', h'⟩ |
          ⟨_, ⟨i', h', hne⟩ | ⟨id', i', h', hne⟩⟩
        · exact absurd h' (by simp)
        · exact absurd h' (by simp)
        · exact absurd h' (by simp)
        · cases h'
          exact hne
        · exact absurd h' (by simp)
      · rintro id i rfl
        rcases hcase with ⟨n, h'⟩ | ⟨i', h'⟩ | ⟨id', i', h'⟩ |
          ⟨_, ⟨i', h', hne⟩ | ⟨id', i', h', hne⟩⟩
        · exact absurd h' (by simp)
        · exact absurd h' (by simp)
        · exact absurd h' (by simp)
        · exact absurd h' (by simp)
        · cases h'
          exact hne
    · rcases List.mem_map.mp h with ⟨o, _, rfl⟩
      exact ⟨fun i hci => absurd hci (by simp), fun id i hci => absurd hci (by simp)⟩

/-- Witness for C9: a reference-only policy attached by bare ID yields a
successful resolution, whose refs are nonempty; and the create call of
the first pass of the missing-ID scenario carries that nonempty ref
list. -/
theorem c9_no_app_write_with_empty_policy_refs_witness :
    (ensurePoliciesGo exAccessCfg exServerEmpty [] [] [] []
      [{ id := "p" }]).refs ≠ [] ∧
    ({ name := "a", domain := "d", apptype := "self_hosted",
       policies := [{ id := "p", precedence := 1 }],
       tags := [exMarkerTag] } : AccessAppInput).policies ≠ [] :=
  ⟨(c9_no_app_write_with_empty_policy_refs exAccessCfg exServerEmpty []).1
      exServerEmpty [] [] [{ id := "p" }] (by decide),
   ((c9_no_app_write_with_empty_policy_refs exAccessCfg exServerEmpty
      [exSpecMissingID]).2
      (AccessCall.createApp
        { name := "a", domain := "d", apptype := "self_hosted",
          policies := [{ id := "p", precedence := 1 }],
          tags := [exMarkerTag] })
      (by decide)).1
      { name := "a", domain := "d", apptype := "self_hosted",
        policies := [{ id := "p", precedence := 1 }],
        tags := [exMarkerTag] } rfl⟩

/-! ### Claim C6: idempotence of a second run -/

/-- C6 failing input: with management on and dry-run off, a desired app
pinned to a remote ID that does not exist resolves to not-found and the
engine CREATES a fresh app (the source's resolveAccessApp warns "access
app id not found" yet its caller takes the create branch); on the second
run against the updated remote state the spec's ID is still missing, so
the pass creates yet another app and deletes the first run's app as a
marked orphan — two mutating calls where the claim requires zero. -/
theorem c6_second_run_not_idempotent :
    (reconcileAccess exAccessCfg
      (reconcileAccess exAccessCfg exServerEmpty [exSpecMissingID]).1
      [exSpecMissingID]).2 =
      [AccessCall.createApp
        { name := "a", domain := "d", apptype := "self_hosted",
          policies := [{ id := "p", precedence := 1 }], tags := [exMarkerTag] },
       AccessCall.deleteApp
        { id := "created:0", name := "a", domain := "d", apptype := "self_hosted",
          policies := [{ id := "p", precedence := 1 }], tags := [exMarkerTag] }] := by
  rfl

/-! ### Claim C3: DNS zone claiming -/

/-- C3 failing input: with zones example.com and api.example.com and
desired hostname svc.api.example.com, the engine claims the hostname in
BOTH zones (filterHostnamesForZone is applied to the full hostname set in
every zone, nothing removes a claimed hostname), and the pass creates the
CNAME record in the parent zone example.com as well; the source's unused
matchZone implements the longest-match claiming the claim describes. -/
theorem c3_hostname_claimed_by_both_zones :
    filterHostnamesForZone (uniqueHostnames [exRouteSvc]) "api.example.com" =
      ["svc.api.example.com"] ∧
    filterHostnamesForZone (uniqueHostnames [exRouteSvc]) "example.com" =
      ["svc.api.example.com"] ∧
    matchZone "svc.api.example.com" (orderZones exZonesState.zones) =
      some ⟨"z2", "api.example.com"⟩ ∧
    (reconcileDNS exDNSCfg exZonesState [exRouteSvc]).2 =
      [DNSCall.createRecord "z2"
        { rtype := "CNAME", name := "svc.api.example.com",
          content := "t.cfargotunnel.com", proxied := true, ttl := 1,
          comment := exMarkerTag },
       DNSCall.createRecord "z1"
        { rtype := "CNAME", name := "svc.api.example.com",
          content := "t.cfargotunnel.com", proxied := true, ttl := 1,
          comment := exMarkerTag }] :=
  ⟨rfl, rfl, rfl, rfl⟩

/-! ### Claim C7: DNS reconcile with management disabled -/

/-- C7 counterexample: with management disabled but the delete flag
enabled, and a stale marker-commented record present, the pass issues no
call at all — the deletion pass does NOT run (while the same state with
management enabled does delete the stale record), so the claimed
delete-only exception does not exist when management is disabled. -/
theorem c7_counterexample_delete_flag_ignored_when_unmanaged :
    (reconcileDNS exDNSCfgOff exStateC7 []).2 = [] ∧
    (reconcileDNS { exDNSCfgOff with manage := true } exStateC7 []).2 =
      [DNSCall.deleteRecord "z1" "r1"] :=
  ⟨rfl, rfl⟩

/-- C7 (amended): when DNS management is disabled, Reconcile skips every
network call and returns success unchanged, regardless of the delete
flag (the delete-only exception of the spec applies instead when
management is enabled and no hostnames are desired). -/
theorem c7_dns_disabled_is_noop (cfg : DNSCfg) (st : DNSState) (routes : List RouteSpec)
    (h : cfg.manage = false) : reconcileDNS cfg st routes = (st, []) := by
  rw [reconcileDNS, if_pos (by simp [h])]

/-- Witness for C7 (amended) at the counterexample state. -/
theorem c7_dns_disabled_is_noop_witness :
    reconcileDNS exDNSCfgOff exStateC7 [] = (exStateC7, []) :=
  c7_dns_disabled_is_noop exDNSCfgOff exStateC7 [] rfl

/-! ### Claim C8: unmanaged DNS records are never touched -/

theorem listDNSRecords_mem {st : DNSState} {z t n : String} {rec : DNSRecord}
    (h : rec ∈ listDNSRecords st z t n) :
    (z, rec) ∈ st.recs ∧ (t = "" ∨ rec.rtype = t) ∧ (n = "" ∨ rec.name = n) := by
  rw [listDNSRecords] at h
  rcases List.mem_map.mp h with ⟨zr, hzr, rfl⟩
  rcases List.mem_filter.mp hzr with ⟨hmem, hcond⟩
  simp only [Bool.and_eq_true, Bool.or_eq_true, beq_iff_eq] at hcond
  obtain ⟨⟨h1, h2⟩, h3⟩ := hcond
  constructor
  · obtain ⟨z', rec'⟩ := zr
    simp only at h1 ⊢
    rw [← h1]
    exact hmem
  · exact ⟨h2, h3⟩

theorem c8RecInv_delete {zoneID : String} {r : DNSRecord} {st : DNSState}
    (hinv : c8RecInv zoneID r st) (zid rid : String) :
    c8RecInv zoneID r (applyDeleteRecord st zid rid) := by
  intro rec hmem hid
  rw [applyDeleteRecord] at hmem
  exact hinv rec (List.mem_of_mem_filter hmem) hid

theorem c8RecInv_create {zoneID : String} {r : DNSRecord} {st : DNSState}
    (hinv : c8RecInv zoneID r st) (hfresh : ∀ m, r.id ≠ freshID m)
    (zid : String) (input : DNSRecordInput) :
    c8RecInv zoneID r (applyCreateRecord st zid input) := by
  intro rec hmem hid
  rw [applyCreateRecord] at hmem
  rcases List.mem_append.mp hmem with h | h
  · exact hinv rec h hid
  · rcases List.mem_singleton.mp h with hEq
    have : rec.id = freshID st.nextID := by
      have := congrArg (fun p => p.2.id) hEq
      simpa using this
    rw [hid] at this
    exact absurd this (hfresh st.nextID)

theorem c8RecInv_update {zoneID : String} {r : DNSRecord} {st : DNSState}
    (hinv : c8RecInv zoneID r st) (zid rid : String) (input : DNSRecordInput)
    (hne : zid = zoneID → rid ≠ r.id) :
    c8RecInv zoneID r (applyUpdateRecord st zid rid input) := by
  intro rec hmem hid
  rw [applyUpdateRecord] at hmem
  rcases List.mem_map.mp hmem with ⟨zr, hzr, hEq⟩
  by_cases htouch : (zr.1 == zid && zr.2.id == rid) = true
  · rw [if_pos htouch] at hEq
    simp only [Bool.and_eq_true, beq_iff_eq] at htouch
    have hz : zr.1 = zoneID := by
      have := congrArg Prod.fst hEq
      simpa using this
    have hrec : rec = dnsRecordOf zr.2.id input := by
      have := congrArg Prod.snd hEq
      simpa using this.symm
    have : rec.id = rid := by rw [hrec, dnsRecordOf, htouch.2]
    rw [hid] at this
    exact absurd this.symm (hne (by rw [← hz, htouch.1]))
  · rw [if_neg htouch] at hEq
    subst hEq
    exact hinv rec hzr hid

theorem c8_deleteStaleStep_safe (cfg : DNSCfg) (byName : List String) (z' : Zone)
    {zoneID : String} {r : DNSRecord}
    (hcomment : r.comment ≠ cfg.managedComment)
    (acc : DNSState × List DNSCall) (record : DNSRecord)
    (hrec : z'.id = zoneID → record.id = r.id → record = r)
    (hinv : c8RecInv zoneID r acc.1)
    (hok : ∀ c ∈ acc.2, c8SafeCall zoneID r.id c) :
    c8RecInv zoneID r (deleteStaleStep cfg byName z' acc record).1 ∧
    ∀ c ∈ (deleteStaleStep cfg byName z' acc record).2, c8SafeCall zoneID r.id c := by
  rw [deleteStaleStep]
  by_cases h1 : (byName.contains (goToLower (goTrimSuffix record.name "."))) = true
  · rw [if_pos h1]
    exact ⟨hinv, hok⟩
  · rw [if_neg h1]
    by_cases h2 : (!cfg.delete) = true
    · rw [if_pos h2]
      exact ⟨hinv, hok⟩
    · rw [if_neg h2]
      by_cases h3 : (record.comment != cfg.managedComment) = true
      · rw [if_pos h3]
        exact ⟨hinv, hok⟩
      · rw [if_neg h3]
        by_cases h4 : cfg.dryRun = true
        · rw [if_pos h4]
          exact ⟨hinv, hok⟩
        · rw [if_neg h4]
          have hcm : record.comment = cfg.managedComment := by
            simpa using h3
          refine ⟨c8RecInv_delete hinv z'.id record.id, ?_⟩
          intro c hc
          rcases List.mem_append.mp hc with h | h
          · exact hok c h
          · rcases List.mem_singleton.mp h with rfl
            refine ⟨fun i => by simp, ?_⟩
            intro hEq
            have hz : z'.id = zoneID := by
              have := congrArg (fun c => match c with
                | DNSCall.deleteRecord z _ => z
                | _ => "") hEq
              simpa using this
            have hr : record.id = r.id := by
              have := congrArg (fun c => match c with
                | DNSCall.deleteRecord _ i => i
                | _ => "") hEq
              simpa using this
            have := hrec hz hr
            rw [this] at hcm
            exact hcomment hcm

theorem c8_deleteFold_safe (cfg : DNSCfg) (byName : List String) (z' : Zone)
    {zoneID : String} {r : DNSRecord}
    (hcomment : r.comment ≠ cfg.managedComment) :
    ∀ (records : List DNSRecord) (acc : DNSState × List DNSCall),
      (∀ record ∈ records, z'.id = zoneID → record.id = r.id → record = r) →
      c8RecInv zoneID r acc.1 → (∀ c ∈ acc.2, c8SafeCall zoneID r.id c) →
      c8RecInv zoneID r (records.foldl (deleteStaleStep cfg byName z') acc).1 ∧
      ∀ c ∈ (records.foldl (deleteStaleStep cfg byName z') acc).2,
        c8SafeCall zoneID r.id c := by
  intro records
  induction records with
  | nil => intro acc _ hinv hok; exact ⟨hinv, hok⟩
  | cons record rest ih =>
    intro acc hrecs hinv hok
    simp only [List.foldl_cons]
    have hstep := c8_deleteStaleStep_safe cfg byName z' hcomment acc record
      (hrecs record (List.mem_cons_self _ _)) hinv hok
    exact ih _ (fun rec h => hrecs rec (List.mem_cons_of_mem _ h)) hstep.1 hstep.2

theorem c8_upsertHostname_safe (cfg : DNSCfg) (z' : Zone)
    {zoneID : String} {r : DNSRecord}
    (hcomment : r.comment ≠ cfg.managedComment)
    (hcontent : goEqualFold r.content (tunnelTarget cfg.tunnelID) = false)
    (hfresh : ∀ m, r.id ≠ freshID m)
    (acc : DNSState × List DNSCall) (h' : String)
    (hinv : c8RecInv zoneID r acc.1)
    (hok : ∀ c ∈ acc.2, c8SafeCall zoneID r.id c) :
    c8RecInv zoneID r (upsertHostname cfg z' acc h').1 ∧
    ∀ c ∈ (upsertHostname cfg z' acc h').2, c8SafeCall zoneID r.id c := by
  rw [upsertHostname]
  by_cases hlen : (listDNSRecords acc.1 z'.id dnsRecordType h').length > 1
  · rw [if_pos hlen]
    exact ⟨hinv, hok⟩
  · rw [if_neg hlen]
    cases hl : listDNSRecords acc.1 z'.id dnsRecordType h' with
    | nil =>
      dsimp only
      by_cases hdr : cfg.dryRun = true
      · rw [if_pos hdr]
        exact ⟨hinv, hok⟩
      · rw [if_neg hdr]
        refine ⟨c8RecInv_create hinv hfresh z'.id _, ?_⟩
        intro c hc
        rcases List.mem_append.mp hc with h | h
        · exact hok c h
        · rcases List.mem_singleton.mp h with rfl
          exact ⟨fun i => by simp, by simp⟩
    | cons record rest =>
      dsimp only
      have hrecmem : record ∈ listDNSRecords acc.1 z'.id dnsRecordType h' := by
        rw [hl]
        exact List.mem_cons_self _ _
      have hmem := (listDNSRecords_mem hrecmem).1
      by_cases ht : (record.rtype != dnsRecordType) = true
      · rw [if_pos ht]
        exact ⟨hinv, hok⟩
      · rw [if_neg ht]
        by_cases hman : (!(isManagedRecord cfg.managedComment record
            { rtype := dnsRecordType, name := h', content := tunnelTarget cfg.tunnelID,
              proxied := true, ttl := dnsRecordTTL, comment := cfg.managedComment })) = true
        · rw [if_pos hman]
          exact ⟨hinv, hok⟩
        · rw [if_neg hman]
          by_cases heq : (dnsRecordEqual record
              { rtype := dnsRecordType, name := h', content := tunnelTarget cfg.tunnelID,
                proxied := true, ttl := dnsRecordTTL, comment := cfg.managedComment }) = true
          · rw [if_pos heq]
            exact ⟨hinv, hok⟩
          · rw [if_neg heq]
            by_cases hdr : cfg.dryRun = true
            · rw [if_pos hdr]
              exact ⟨hinv, hok⟩
            · rw [if_neg hdr]
              by_cases hbad : z'.id = zoneID ∧ record.id = r.id
              · exfalso
                have hrr : record = r := hinv record (hbad.1 ▸ hmem) hbad.2
                rw [hrr] at hman
                apply hman
                simp only [isManagedRecord, Bool.not_eq_true']
                rw [if_neg (by simpa using hcomment)]
                exact hcontent
              · refine ⟨c8RecInv_update hinv z'.id record.id _
                  (fun hz hr => hbad ⟨hz, hr⟩), ?_⟩
                intro c hc
                rcases List.mem_append.mp hc with h | h
                · exact hok c h
                · rcases List.mem_singleton.mp h with rfl
                  refine ⟨?_, by simp⟩
                  intro i hEq
                  have hz : z'.id = zoneID := by
                    have := congrArg (fun c => match c with
                      | DNSCall.updateRecord z _ _ => z
                      | _ => "") hEq
                    simpa using this
                  have hr : record.id = r.id := by
                    have := congrArg (fun c => match c with
                      | DNSCall.updateRecord _ i _ => i
                      | _ => "") hEq
                    simpa using this
                  exact hbad ⟨hz, hr⟩

theorem c8_upsertFold_safe (cfg : DNSCfg) (z' : Zone)
    {zoneID : String} {r : DNSRecord}
    (hcomment : r.comment ≠ cfg.managedComment)
    (hcontent : goEqualFold r.content (tunnelTarget cfg.tunnelID) = false)
    (hfresh : ∀ m, r.id ≠ freshID m) :
    ∀ (hostnames : List String) (acc : DNSState × List DNSCall),
      c8RecInv zoneID r acc.1 → (∀ c ∈ acc.2, c8SafeCall zoneID r.id c) →
      c8RecInv zoneID r (hostnames.foldl (upsertHostname cfg z') acc).1 ∧
      ∀ c ∈ (hostnames.foldl (upsertHostname cfg z') acc).2,
        c8SafeCall zoneID r.id c := by
  intro hostnames
  induction hostnames with
  | nil => intro acc hinv hok; exact ⟨hinv, hok⟩
  | cons h' rest ih =>
    intro acc hinv hok
    simp only [List.foldl_cons]
    have hstep := c8_upsertHostname_safe cfg z' hcomment hcontent hfresh acc h' hinv hok
    exact ih _ hstep.1 hstep.2

theorem c8_processZone_safe (cfg : DNSCfg) (hostnames : List String) (z' : Zone)
    {zoneID : String} {r : DNSRecord}
    (hcomment : r.comment ≠ cfg.managedComment)
    (hcontent : goEqualFold r.content (tunnelTarget cfg.tunnelID) = false)
    (hfresh : ∀ m, r.id ≠ freshID m)
    (acc : DNSState × List DNSCall)
    (hinv : c8RecInv zoneID r acc.1)
    (hok : ∀ c ∈ acc.2, c8SafeCall zoneID r.id c) :
    c8RecInv zoneID r (processZone cfg hostnames acc z').1 ∧
    ∀ c ∈ (processZone cfg hostnames acc z').2, c8SafeCall zoneID r.id c := by
  rw [processZone]
  have hrecs : ∀ record ∈ listDNSRecords acc.1 z'.id dnsRecordType "",
      z'.id = zoneID → record.id = r.id → record = r := by
    intro record hrec hz hid
    have := (listDNSRecords_mem hrec).1
    exact hinv record (hz ▸ this) hid
  have hdel := c8_deleteFold_safe cfg (filterHostnamesForZone hostnames z'.name) z'
    hcomment _ acc hrecs hinv hok
  exact c8_upsertFold_safe cfg z' hcomment hcontent hfresh _ _ hdel.1 hdel.2

theorem c8_zonesFold_safe (cfg : DNSCfg) (hostnames : List String)
    {zoneID : String} {r : DNSRecord}
    (hcomment : r.comment ≠ cfg.managedComment)
    (hcontent : goEqualFold r.content (tunnelTarget cfg.tunnelID) = false)
    (hfresh : ∀ m, r.id ≠ freshID m) :
    ∀ (zones : List Zone) (acc : DNSState × List DNSCall),
      c8RecInv zoneID r acc.1 → (∀ c ∈ acc.2, c8SafeCall zoneID r.id c) →
      ∀ c ∈ (zones.foldl (processZone cfg hostnames) acc).2,
        c8SafeCall zoneID r.id c := by
  intro zones
  induction zones with
  | nil => intro acc _ hok; exact hok
  | cons z' rest ih =>
    intro acc hinv hok
    simp only [List.foldl_cons]
    have hstep := c8_processZone_safe cfg hostnames z' hcomment hcontent hfresh
      acc hinv hok
    exact ih _ hstep.1 hstep.2

/-- C8: for a desired hostname claimed by a zone for which exactly one
existing CNAME record is found, if that record's comment differs from
the ownership marker and its content differs (case-insensitively) from
the tunnel target, the DNS reconciler issues neither an update nor a
delete for that record anywhere in the pass (it is skipped with a
warning), for any server state with per-zone-unique record ids in which
the server only mints fresh identifiers. -/
theorem c8_unmanaged_record_never_touched
    (cfg : DNSCfg) (st : DNSState) (routes : List RouteSpec)
    (zone : Zone) (h : String) (r : DNSRecord)
    (_hzone : zone ∈ st.zones)
    (_hclaimed : h ∈ filterHostnamesForZone (uniqueHostnames routes) zone.name)
    (hfound : listDNSRecords st zone.id dnsRecordType h = [r])
    (hids : ∀ rec rec', (zone.id, rec) ∈ st.recs → (zone.id, rec') ∈ st.recs →
      rec.id = rec'.id → rec = rec')
    (hfresh : ∀ m, r.id ≠ freshID m)
    (hcomment : r.comment ≠ cfg.managedComment)
    (hcontent : goEqualFold r.content (tunnelTarget cfg.tunnelID) = false) :
    ∀ c ∈ (reconcileDNS cfg st routes).2,
      (∀ i, c ≠ DNSCall.updateRecord zone.id r.id i) ∧
      c ≠ DNSCall.deleteRecord zone.id r.id := by
  have hrmem : (zone.id, r) ∈ st.recs := by
    have hr : r ∈ listDNSRecords st zone.id dnsRecordType h := by
      rw [hfound]
      exact List.mem_singleton_self r
    exact (listDNSRecords_mem hr).1
  have hinv : c8RecInv zone.id r st := fun rec hm hi => hids rec r hm hrmem hi
  rw [reconcileDNS]
  by_cases h1 : (!cfg.manage) = true
  · rw [if_pos h1]
    simp
  · rw [if_neg h1]
    dsimp only
    by_cases h2 : ((uniqueHostnames routes).isEmpty && !cfg.delete) = true
    · rw [if_pos h2]
      simp
    · rw [if_neg h2]
      by_cases h3 : st.zones.isEmpty = true
      · rw [if_pos h3]
        simp
      · rw [if_neg h3]
        exact c8_zonesFold_safe cfg (uniqueHostnames routes) hcomment hcontent hfresh
          (orderZones st.zones) (st, []) hinv (by simp)

/-- Witness for C8: a single zone holding one hand-made CNAME record for
the desired hostname (foreign comment, foreign target); the pass must
not delete it. -/
theorem c8_unmanaged_record_never_touched_witness :
    DNSCall.deleteRecord "z1" "r2" ∉ (reconcileDNS exDNSCfg exStateC8 [exRouteC8]).2 := by
  intro hmem
  exact (c8_unmanaged_record_never_touched exDNSCfg exStateC8 [exRouteC8]
    ⟨"z1", "example.com"⟩ "svc.example.com" exForeignRecord
    (by decide) (by decide) (by decide)
    (by
      intro rec rec' hm hm' _
      simp only [exStateC8, exForeignRecord, List.mem_singleton, Prod.mk.injEq] at hm hm'
      rw [hm.2, hm'.2])
    (by
      intro m hEq
      have hl := congrArg String.length hEq
      dsimp only [exForeignRecord, freshID] at hl
      rw [String.length_append] at hl
      have h2 : ("r2" : String).length = 2 := rfl
      have h8 : ("created:" : String).length = 8 := rfl
      rw [h2, h8] at hl
      omega)
    (by decide) (by decide)
    _ hmem).2 rfl
